import Mathlib

/-!
Verification of the core algorithms of `ros2_launch_helpers`
(`src/ros2_launch_helpers/helpers.py`): the strict YAML overlay merge
(`merge_yaml_maps_strict` with its inner `same_type`, and the benedict
flatten/unflatten it relies on) and the namespace grammar helpers
(`is_valid_name`, `is_valid_namespace`, `create_global_namespace`,
` create_robot_prefix`).

Python values that can appear in a parsed YAML document are modelled by the
inductive type `YVal`.  Machine floats never take part in any arithmetic in
the verified code (they are only copied and compared by runtime type), so the
`vfloat` constructor carries an abstract `Int` payload identifying the value.
-/

namespace Ros2LaunchHelpers

/-- A parsed YAML value (the values `yaml.safe_load` can produce and the merge
manipulates): `None`, `bool`, `int`, `float`, `str`, `list`, `dict`.
Dictionaries and documents are association lists in insertion order, which is
how Python dictionaries behave. -/
inductive YVal : Type where
  | vnull : YVal
  | vbool : Bool → YVal
  | vint : Int → YVal
  | vfloat : Int → YVal
  | vstr : String → YVal
  | vseq : List YVal → YVal
  | vmap : List (String × YVal) → YVal

/-- The Python runtime type of a value, as `type(x)` sees it. -/
inductive TypeTag : Type where
  | tnull | tbool | tint | tfloat | tstr | tseq | tmap
deriving DecidableEq

def tag : YVal → TypeTag
  | .vnull => .tnull
  | .vbool _ => .tbool
  | .vint _ => .tint
  | .vfloat _ => .tfloat
  | .vstr _ => .tstr
  | .vseq _ => .tseq
  | .vmap _ => .tmap

/-- `type(x).__name__` for each runtime type. -/
def typeName : TypeTag → String
  | .tnull => "NoneType"
  | .tbool => "bool"
  | .tint => "int"
  | .tfloat => "float"
  | .tstr => "str"
  | .tseq => "list"
  | .tmap => "dict"

/-- `isinstance(x, numbers.Real)`: true for `int`, `float` and `bool`
(in Python `bool` is a subclass of `int`). -/
def isRealNum : YVal → Bool
  | .vbool _ => true
  | .vint _ => true
  | .vfloat _ => true
  | _ => false

/-- `isinstance(x, bool)`. -/
def isBoolVal : YVal → Bool
  | .vbool _ => true
  | _ => false

/-- `x is None`. -/
def isNullVal : YVal → Bool
  | .vnull => true
  | _ => false

/-- `same_type` from `merge_yaml_maps_strict` (helpers.py:350-377): whether
`b` is allowed to override `a`.  Exact runtime-type match passes; with
`numeric_compat` an int/float interchange passes provided neither side is a
bool; everything else fails. -/
def same_type (a b : YVal) (numeric_compat : Bool) : Bool :=
  if tag a = tag b then
    true
  else if numeric_compat && isRealNum a && isRealNum b then
    !isBoolVal a && !isBoolVal b
  else
    false

/-- Python dict lookup `m[k]` / `k in m` on an association list (first match;
well-formed documents have distinct keys). -/
def lookupY (k : String) : List (String × YVal) → Option YVal
  | [] => none
  | (k', v) :: rest => if k' = k then some v else lookupY k rest

/-- The keys of a document level, in insertion order. -/
def keysOf (m : List (String × YVal)) : List String :=
  m.map (fun kv => kv.1)

/-- The one-character flat separator as a string (the code's default
`flat_sep = '.'`). -/
def sepStr (sep : Char) : String := ⟨[sep]⟩

/-- Modelled from the spec (§4.3): `benedict.flatten(separator)`, library code
not in this repository.  Depth-first traversal in insertion order; dict-valued
nodes are descended into and never emitted; other nodes are emitted at their
joined dotted path. -/
def flatten (sep : Char) : List (String × YVal) → List (String × YVal)
  | [] => []
  | (k, v) :: rest =>
      (match v with
       | YVal.vmap m => (flatten sep m).map (fun kv => (k ++ sepStr sep ++ kv.1, kv.2))
       | _ => [(k, v)]) ++ flatten sep rest
termination_by l => sizeOf l
decreasing_by
  all_goals simp_wf
  all_goals omega

/-- Helper used only in proofs: the flatten traversal emitting raw
path-segment lists instead of joined strings. -/
def flattenSegs : List (String × YVal) → List (List String × YVal)
  | [] => []
  | (k, v) :: rest =>
      (match v with
       | YVal.vmap m => (flattenSegs m).map (fun kv => (k :: kv.1, kv.2))
       | _ => [([k], v)]) ++ flattenSegs rest
termination_by l => sizeOf l
decreasing_by
  all_goals simp_wf
  all_goals omega

/-- Splitting a flat path on the separator character (Python
`key.split(sep)` for a one-character separator). -/
def splitPath (sep : Char) (s : String) : List String :=
  (s.data.splitOn sep).map (fun l => ⟨l⟩)

/-- Set the value of key `k` at one document level, appending at the end when
the key is new (Python dict assignment semantics). -/
def setLeaf (k : String) (v : YVal) : List (String × YVal) → List (String × YVal)
  | [] => [(k, v)]
  | (k', v') :: rest => if k' = k then (k, v) :: rest else (k', v') :: setLeaf k v rest

/-- Descend into the dict node at key `k` of one document level, creating it
when missing, and transform its contents with `f`.  When the existing value at
`k` is not a dict it is replaced by a fresh dict (that situation cannot arise
from flatten output of a well-formed document). -/
def descend (k : String) (f : List (String × YVal) → List (String × YVal)) :
    List (String × YVal) → List (String × YVal)
  | [] => [(k, YVal.vmap (f []))]
  | (k', v') :: rest =>
    if k' = k then
      match v' with
      | YVal.vmap sub => (k, YVal.vmap (f sub)) :: rest
      | _ => (k, YVal.vmap (f [])) :: rest
    else
      (k', v') :: descend k f rest

/-- Modelled from the spec (§4.3): the per-path insertion step of
`benedict.unflatten` (library code not in this repository): descend along the
split path, creating intermediate dict nodes as needed, and set the leaf. -/
def insertSegs : List String → YVal → List (String × YVal) → List (String × YVal)
  | [], _, m => m
  | [k], v, m => setLeaf k v m
  | k :: k2 :: ks, v, m => descend k (insertSegs (k2 :: ks) v) m

/-- Modelled from the spec (§4.3): `benedict.unflatten(separator)`, library
code not in this repository. -/
def unflatten (sep : Char) (flat : List (String × YVal)) : List (String × YVal) :=
  flat.foldl (fun acc kv => insertSegs (splitPath sep kv.1) kv.2 acc) []

/-- The type-mismatch error raised by the merge
(`TypeError(f'{dk}: type mismatch (default=..., override=...)')`). -/
structure MergeErr : Type where
  path : String
  defaultType : String
  overrideType : String
deriving DecidableEq

/-- The main loop of `merge_yaml_maps_strict` (helpers.py:392-413): walk the
flattened defaults in order, overlaying flattened override values. Returns the
merged flat document together with the `applied` and `ignored` key lists
accumulated during the walk. -/
def mergeWalk (allow_none numeric_compat : Bool) (oflat : List (String × YVal)) :
    List (String × YVal) → Except MergeErr (List (String × YVal) × List String × List String)
  | [] => .ok ([], [], [])
  | (dk, dv) :: rest =>
    match lookupY dk oflat with
    | none =>
      match mergeWalk allow_none numeric_compat oflat rest with
      | .error e => .error e
      | .ok (m, a, i) => .ok ((dk, dv) :: m, a, i)
    | some ov =>
      if isNullVal ov then
        if allow_none then
          match mergeWalk allow_none numeric_compat oflat rest with
          | .error e => .error e
          | .ok (m, a, i) => .ok ((dk, YVal.vnull) :: m, dk :: a, i)
        else
          match mergeWalk allow_none numeric_compat oflat rest with
          | .error e => .error e
          | .ok (m, a, i) => .ok ((dk, dv) :: m, a, dk :: i)
      else
        if same_type dv ov numeric_compat then
          match mergeWalk allow_none numeric_compat oflat rest with
          | .error e => .error e
          | .ok (m, a, i) => .ok ((dk, ov) :: m, dk :: a, i)
        else
          .error ⟨dk, typeName (tag dv), typeName (tag ov)⟩

/-- `merge_yaml_maps_strict` (helpers.py:342-423): flatten both documents,
walk the flattened defaults overlaying override values, append the
override-only keys to `ignored`, and unflatten the merged flat document. -/
def merge_yaml_maps_strict (defaults override : List (String × YVal)) (sep : Char)
    (allow_none numeric_compat : Bool) :
    Except MergeErr (List (String × YVal) × List String × List String) :=
  let dflat := flatten sep defaults
  let oflat := flatten sep override
  match mergeWalk allow_none numeric_compat oflat dflat with
  | .error e => .error e
  | .ok (mergedFlat, applied, ignored) =>
    let extras := (keysOf oflat).filter (fun ok => (lookupY ok dflat).isNone)
    .ok (unflatten sep mergedFlat, applied, ignored ++ extras)

/-- Well-formedness of a document in the sense of the spec's ConfigDocument
(§3): at every level the keys are distinct (it is a mapping), no key contains
the join separator (the claim's precondition), and every dict value is
non-empty (leaves are scalars or sequences, never empty mappings). -/
def wfDoc (sep : Char) : List (String × YVal) → Bool
  | [] => true
  | (k, v) :: rest =>
      !decide (sep ∈ k.data) && !decide (k ∈ keysOf rest) &&
        (match v with
         | YVal.vmap m => !m.isEmpty && wfDoc sep m
         | _ => true) &&
        wfDoc sep rest
termination_by l => sizeOf l
decreasing_by
  all_goals simp_wf
  all_goals omega

/-- Folding the unflatten insertion over a list of (segment path, value)
pairs. `unflatten` is this fold after splitting each joined path. -/
def foldIns (l : List (List String × YVal)) (acc : List (String × YVal)) :
    List (String × YVal) :=
  l.foldl (fun a kv => insertSegs kv.1 kv.2 a) acc

/-- The joined rendering of a segment path, as flatten produces it. -/
def joinPath (sep : Char) : List String → String
  | [] => ""
  | [k] => k
  | k :: k2 :: ks => k ++ sepStr sep ++ joinPath sep (k2 :: ks)

theorem foldIns_nil (acc : List (String × YVal)) : foldIns [] acc = acc := rfl

theorem foldIns_cons (p : List String) (v : YVal) (l : List (List String × YVal))
    (acc : List (String × YVal)) :
    foldIns ((p, v) :: l) acc = foldIns l (insertSegs p v acc) := rfl

theorem foldIns_append (l₁ l₂ : List (List String × YVal)) (acc : List (String × YVal)) :
    foldIns (l₁ ++ l₂) acc = foldIns l₂ (foldIns l₁ acc) := by
  simp [foldIns, List.foldl_append]

theorem splitPath_no_sep {sep : Char} {k : String} (h : sep ∉ k.data) :
    splitPath sep k = [k] := by
  have h1 : k.data.splitOn sep = [k.data] := by
    apply List.splitOnP_eq_single
    intro x hx
    simp only [beq_iff_eq]
    intro hxe
    exact h (hxe ▸ hx)
  simp [splitPath, h1]

theorem splitPath_cons {sep : Char} {k r : String} (h : sep ∉ k.data) :
    splitPath sep (k ++ sepStr sep ++ r) = k :: splitPath sep r := by
  have hdata : (k ++ sepStr sep ++ r).data = k.data ++ sep :: r.data := by
    simp [sepStr]
  have h1 : (k.data ++ sep :: r.data).splitOn sep = k.data :: r.data.splitOn sep := by
    apply List.splitOnP_first
    · intro x hx
      simp only [beq_iff_eq]
      intro hxe
      exact h (hxe ▸ hx)
    · simp
  simp [splitPath, hdata, h1]

theorem splitPath_joinPath {sep : Char} :
    ∀ segs : List String, segs ≠ [] → (∀ s ∈ segs, sep ∉ s.data) →
      splitPath sep (joinPath sep segs) = segs
  | [], h, _ => absurd rfl h
  | [k], _, hs => by
    have := splitPath_no_sep (hs k (by simp))
    simpa [joinPath] using this
  | k :: k2 :: ks, _, hs => by
    have ih := splitPath_joinPath (k2 :: ks) (by simp)
      (fun s hsm => hs s (List.mem_cons_of_mem _ hsm))
    have hk : sep ∉ k.data := hs k (by simp)
    simp only [joinPath]
    rw [splitPath_cons hk, ih]

theorem setLeaf_absent {k : String} {v : YVal} :
    ∀ {m : List (String × YVal)}, k ∉ keysOf m → setLeaf k v m = m ++ [(k, v)]
  | [], _ => rfl
  | (k', v') :: rest, h => by
    have hne : k' ≠ k := by
      intro he
      exact h (by simp [keysOf, he])
    have hrest : k ∉ keysOf rest := by
      intro hm
      exact h (by simp [keysOf] at hm ⊢; exact Or.inr hm)
    simp [setLeaf, hne, setLeaf_absent hrest]

theorem descend_absent {k : String} {f : List (String × YVal) → List (String × YVal)} :
    ∀ {m : List (String × YVal)}, k ∉ keysOf m →
      descend k f m = m ++ [(k, YVal.vmap (f []))]
  | [], _ => rfl
  | (k', v') :: rest, h => by
    have hne : k' ≠ k := by
      intro he
      exact h (by simp [keysOf, he])
    have hrest : k ∉ keysOf rest := by
      intro hm
      exact h (by simp [keysOf] at hm ⊢; exact Or.inr hm)
    simp [descend, hne, descend_absent hrest]

theorem descend_found {k : String} {f : List (String × YVal) → List (String × YVal)}
    (s tail : List (String × YVal)) :
    ∀ {acc : List (String × YVal)}, k ∉ keysOf acc →
      descend k f (acc ++ (k, YVal.vmap s) :: tail) =
        acc ++ (k, YVal.vmap (f s)) :: tail
  | [], _ => by simp [descend]
  | (k', v') :: acc, h => by
    have hne : k' ≠ k := by
      intro he
      exact h (by simp [keysOf, he])
    have hacc : k ∉ keysOf acc := by
      intro hm
      exact h (by simp [keysOf] at hm ⊢; exact Or.inr hm)
    rw [List.cons_append]
    simp only [descend, if_neg hne]
    rw [descend_found s tail hacc, List.cons_append]

theorem insertSegs_cons_ne_nil {k : String} {v : YVal} {p : List String} (hp : p ≠ [])
    (m : List (String × YVal)) :
    insertSegs (k :: p) v m = descend k (insertSegs p v) m := by
  match p, hp with
  | p1 :: ps, _ => rfl

theorem insertSegs_absent {k : String} {v : YVal} {p : List String} (hp : p ≠ [])
    {m : List (String × YVal)} (h : k ∉ keysOf m) :
    insertSegs (k :: p) v m = m ++ [(k, YVal.vmap (insertSegs p v []))] := by
  rw [insertSegs_cons_ne_nil hp, descend_absent h]

theorem insertSegs_found {k : String} {v : YVal} {p : List String} (hp : p ≠ [])
    (s tail : List (String × YVal)) {acc : List (String × YVal)} (h : k ∉ keysOf acc) :
    insertSegs (k :: p) v (acc ++ (k, YVal.vmap s) :: tail) =
      acc ++ (k, YVal.vmap (insertSegs p v s)) :: tail := by
  rw [insertSegs_cons_ne_nil hp, descend_found s tail h]

theorem foldIns_nested {k : String} :
    ∀ {l : List (List String × YVal)}, (∀ kv ∈ l, kv.1 ≠ []) →
      ∀ {s acc : List (String × YVal)}, k ∉ keysOf acc →
        foldIns (l.map (fun kv => (k :: kv.1, kv.2))) (acc ++ [(k, YVal.vmap s)]) =
          acc ++ [(k, YVal.vmap (foldIns l s))]
  | [], _, _, _, _ => by simp [foldIns]
  | (p, v) :: l, hl, s, acc, hacc => by
    have hp : p ≠ [] := hl (p, v) (by simp)
    have hl' : ∀ kv ∈ l, kv.1 ≠ [] := fun kv hkv => hl kv (List.mem_cons_of_mem _ hkv)
    simp only [List.map_cons, foldIns_cons]
    rw [insertSegs_found hp s [] hacc]
    rw [foldIns_nested hl' hacc]


theorem keysOf_nil : keysOf [] = [] := rfl

theorem keysOf_cons (k : String) (v : YVal) (m : List (String × YVal)) :
    keysOf ((k, v) :: m) = k :: keysOf m := rfl

theorem keysOf_append (a b : List (String × YVal)) :
    keysOf (a ++ b) = keysOf a ++ keysOf b := by
  simp [keysOf]

theorem flattenSegs_path_ne_nil (d : List (String × YVal)) :
    ∀ kv ∈ flattenSegs d, kv.1 ≠ [] := by
  induction d using flattenSegs.induct with
  | case1 => simp [flattenSegs]
  | case2 k v rest ihm ihr =>
    intro kv hkv
    cases v
    case vmap m =>
      simp only [flattenSegs] at hkv
      rcases List.mem_append.1 hkv with h | h
      · rcases List.mem_map.1 h with ⟨a, _, rfl⟩
        simp
      · exact ihr kv h
    all_goals
      simp only [flattenSegs] at hkv
      rcases List.mem_append.1 hkv with h | h
      · rcases List.mem_singleton.1 h with rfl
        simp
      · exact ihr kv h

theorem wfDoc_cons {sep : Char} {k : String} {v : YVal} {rest : List (String × YVal)}
    (h : wfDoc sep ((k, v) :: rest) = true) :
    sep ∉ k.data ∧ k ∉ keysOf rest ∧
      (match v with
       | YVal.vmap m => m ≠ [] ∧ wfDoc sep m = true
       | _ => True) ∧
      wfDoc sep rest = true := by
  cases v
  case vmap m =>
    simp only [wfDoc, Bool.and_eq_true, Bool.not_eq_true', decide_eq_false_iff_not,
      List.isEmpty_eq_false] at h
    obtain ⟨⟨⟨h1, h2⟩, h3⟩, h4⟩ := h
    exact ⟨h1, h2, h3, h4⟩
  all_goals
    simp only [wfDoc, Bool.and_eq_true, Bool.not_eq_true', decide_eq_false_iff_not] at h
    obtain ⟨⟨⟨h1, h2⟩, _⟩, h4⟩ := h
    exact ⟨h1, h2, trivial, h4⟩

theorem flattenSegs_sepFree {sep : Char} (d : List (String × YVal)) :
    wfDoc sep d = true → ∀ kv ∈ flattenSegs d, ∀ s ∈ kv.1, sep ∉ s.data := by
  induction d using flattenSegs.induct with
  | case1 => simp [flattenSegs]
  | case2 k v rest ihm ihr =>
    intro hw kv hkv
    obtain ⟨hksep, _, hv, hwrest⟩ := wfDoc_cons hw
    cases v
    case vmap m =>
      simp only [flattenSegs] at hkv
      rcases List.mem_append.1 hkv with h | h
      · rcases List.mem_map.1 h with ⟨a, ha, rfl⟩
        intro s hs
        rcases List.mem_cons.1 hs with rfl | hs'
        · exact hksep
        · exact ihm hv.2 a ha s hs'
      · exact ihr hwrest kv h
    all_goals
      simp only [flattenSegs] at hkv
      rcases List.mem_append.1 hkv with h | h
      · rcases List.mem_singleton.1 h with rfl
        intro s hs
        rcases List.mem_singleton.1 hs with rfl
        exact hksep
      · exact ihr hwrest kv h

theorem flattenSegs_ne_nil {sep : Char} (d : List (String × YVal)) :
    wfDoc sep d = true → d ≠ [] → flattenSegs d ≠ [] := by
  induction d using flattenSegs.induct with
  | case1 => intro _ h; exact absurd rfl h
  | case2 k v rest ihm ihr =>
    intro hw _
    obtain ⟨_, _, hv, hwrest⟩ := wfDoc_cons hw
    cases v
    case vmap m =>
      simp only [flattenSegs]
      intro hcontra
      rcases List.append_eq_nil.1 hcontra with ⟨h1, _⟩
      exact ihm hv.2 hv.1 (List.map_eq_nil_iff.1 h1)
    all_goals simp [flattenSegs]

theorem joinPath_cons {sep : Char} {k : String} {p : List String} (hp : p ≠ []) :
    joinPath sep (k :: p) = k ++ sepStr sep ++ joinPath sep p := by
  match p, hp with
  | p1 :: ps, _ => rfl

theorem flatten_eq_join {sep : Char} (d : List (String × YVal)) :
    flatten sep d = (flattenSegs d).map (fun kv => (joinPath sep kv.1, kv.2)) := by
  induction d using flattenSegs.induct with
  | case1 => simp [flatten, flattenSegs]
  | case2 k v rest ihm ihr =>
    cases v
    case vmap m =>
      simp only [flatten, flattenSegs, List.map_append]
      rw [ihr]
      congr 1
      rw [ihm, List.map_map, List.map_map]
      apply List.map_congr_left
      intro a ha
      have hpa : a.1 ≠ [] := flattenSegs_path_ne_nil m a ha
      simp [Function.comp, joinPath_cons hpa]
    all_goals
      simp only [flatten, flattenSegs, List.map_append]
      rw [ihr]
      congr 1

theorem foldIns_flattenSegs {sep : Char} (d : List (String × YVal)) :
    wfDoc sep d = true →
      ∀ acc : List (String × YVal), (∀ k ∈ keysOf d, k ∉ keysOf acc) →
        foldIns (flattenSegs d) acc = acc ++ d := by
  induction d using flattenSegs.induct with
  | case1 => intro _ acc _; simp [flattenSegs, foldIns]
  | case2 k v rest ihm ihr =>
    intro hw acc hdisj
    obtain ⟨_, hkrest, hv, hwrest⟩ := wfDoc_cons hw
    have hkacc : k ∉ keysOf acc := hdisj k (by simp [keysOf_cons])
    have hdisj' : ∀ k' ∈ keysOf rest, k' ∉ keysOf (acc ++ [(k, v)]) := by
      intro k' hk'
      have h1 : k' ∉ keysOf acc := hdisj k' (by simp [keysOf_cons]; exact Or.inr hk')
      have h2 : k' ≠ k := fun he => hkrest (he ▸ hk')
      rw [keysOf_append]
      simp only [List.mem_append, keysOf_cons, keysOf_nil, List.mem_singleton]
      rintro (h | h)
      · exact h1 h
      · exact h2 h
    cases v
    case vmap m =>
      simp only [flattenSegs]
      rw [foldIns_append]
      have hfsm := flattenSegs_ne_nil m hv.2 hv.1
      rcases hfs : flattenSegs m with _ | ⟨⟨p0, v0⟩, t⟩
      · exact absurd hfs hfsm
      have hp0 : p0 ≠ [] := flattenSegs_path_ne_nil m (p0, v0) (by rw [hfs]; simp)
      have ht : ∀ kv ∈ t, kv.1 ≠ [] := by
        intro kv hkv
        exact flattenSegs_path_ne_nil m kv (by rw [hfs]; simp [hkv])
      simp only [hfs, List.map_cons, foldIns_cons]
      rw [insertSegs_absent hp0 hkacc]
      rw [foldIns_nested ht hkacc]
      have hmm : foldIns t (insertSegs p0 v0 []) = m := by
        have h0 := ihm hv.2 [] (by simp [keysOf_nil])
        rw [hfs, foldIns_cons] at h0
        simpa using h0
      rw [hmm]
      rw [ihr hwrest (acc ++ [(k, YVal.vmap m)]) hdisj']
      simp
    all_goals
      simp only [flattenSegs]
      rw [foldIns_append]
      simp only [foldIns_cons, foldIns_nil, insertSegs, setLeaf_absent hkacc]
      rw [ihr hwrest _ hdisj']
      simp

theorem foldl_split_eq_foldIns {sep : Char} :
    ∀ (l : List (List String × YVal)) (acc : List (String × YVal)),
      (∀ kv ∈ l, splitPath sep (joinPath sep kv.1) = kv.1) →
        List.foldl (fun a kv => insertSegs (splitPath sep (joinPath sep kv.1)) kv.2 a) acc l =
          foldIns l acc
  | [], _, _ => rfl
  | (p, v) :: l, acc, h => by
    have hp := h (p, v) (by simp)
    simp only [List.foldl_cons, foldIns_cons, hp]
    exact foldl_split_eq_foldIns l _ (fun kv hkv => h kv (List.mem_cons_of_mem _ hkv))

/-- Round-trip at the heart of claim C5: unflattening the flattened form of a
well-formed document gives the document back. -/
theorem unflatten_flatten {sep : Char} {d : List (String × YVal)}
    (hw : wfDoc sep d = true) : unflatten sep (flatten sep d) = d := by
  unfold unflatten
  rw [flatten_eq_join d, List.foldl_map]
  have hsplit : ∀ kv ∈ flattenSegs d, splitPath sep (joinPath sep kv.1) = kv.1 := by
    intro kv hkv
    exact splitPath_joinPath kv.1 (flattenSegs_path_ne_nil d kv hkv)
      (fun s hs => flattenSegs_sepFree d hw kv hkv s hs)
  rw [foldl_split_eq_foldIns (flattenSegs d) [] hsplit]
  simpa using foldIns_flattenSegs d hw [] (by simp [keysOf_nil])

theorem isNullVal_true {v : YVal} (h : isNullVal v = true) : v = YVal.vnull := by
  cases v <;> simp [isNullVal] at h ⊢

theorem lookupY_some_mem {k : String} {v : YVal} :
    ∀ {l : List (String × YVal)}, lookupY k l = some v → (k, v) ∈ l
  | [], h => by simp [lookupY] at h
  | (k', v') :: rest, h => by
    by_cases he : k' = k
    · subst he
      have hv : v' = v := by
        have h0 : lookupY k' ((k', v') :: rest) = some v' := by simp [lookupY]
        rw [h0] at h
        injection h
      subst hv
      simp
    · have h0 : lookupY k ((k', v') :: rest) = lookupY k rest := by simp [lookupY, he]
      rw [h0] at h
      exact List.mem_cons_of_mem _ (lookupY_some_mem h)

theorem mergeWalk_nil {an nc : Bool} {o : List (String × YVal)} :
    mergeWalk an nc o [] = .ok ([], [], []) := rfl

theorem mergeWalk_cons_ok {an nc : Bool} {o : List (String × YVal)} {dk : String}
    {dv : YVal} {rest m : List (String × YVal)} {a i : List String}
    (h : mergeWalk an nc o ((dk, dv) :: rest) = .ok (m, a, i)) :
    ∃ m' a' i', mergeWalk an nc o rest = .ok (m', a', i') ∧
      ((lookupY dk o = none ∧ m = (dk, dv) :: m' ∧ a = a' ∧ i = i') ∨
       (lookupY dk o = some YVal.vnull ∧ an = true ∧
         m = (dk, YVal.vnull) :: m' ∧ a = dk :: a' ∧ i = i') ∨
       (lookupY dk o = some YVal.vnull ∧ an = false ∧
         m = (dk, dv) :: m' ∧ a = a' ∧ i = dk :: i') ∨
       (∃ ov, lookupY dk o = some ov ∧ isNullVal ov = false ∧
         same_type dv ov nc = true ∧ m = (dk, ov) :: m' ∧ a = dk :: a' ∧ i = i')) := by
  simp only [mergeWalk] at h
  cases hlook : lookupY dk o with
  | none =>
    simp only [hlook] at h
    cases hrec : mergeWalk an nc o rest with
    | error e => rw [hrec] at h; simp at h
    | ok t =>
      obtain ⟨m', a', i'⟩ := t
      rw [hrec] at h
      simp only [Except.ok.injEq, Prod.mk.injEq] at h
      exact ⟨m', a', i', rfl, Or.inl ⟨rfl, h.1.symm, h.2.1.symm, h.2.2.symm⟩⟩
  | some ov =>
    simp only [hlook] at h
    by_cases hnull : isNullVal ov = true
    · rw [if_pos hnull] at h
      have hove := isNullVal_true hnull
      by_cases han : an = true
      · rw [if_pos han] at h
        cases hrec : mergeWalk an nc o rest with
        | error e => rw [hrec] at h; simp at h
        | ok t =>
          obtain ⟨m', a', i'⟩ := t
          rw [hrec] at h
          simp only [Except.ok.injEq, Prod.mk.injEq] at h
          exact ⟨m', a', i', rfl,
            Or.inr (Or.inl ⟨by rw [hove], han, h.1.symm, h.2.1.symm, h.2.2.symm⟩)⟩
      · rw [if_neg han] at h
        cases hrec : mergeWalk an nc o rest with
        | error e => rw [hrec] at h; simp at h
        | ok t =>
          obtain ⟨m', a', i'⟩ := t
          rw [hrec] at h
          simp only [Except.ok.injEq, Prod.mk.injEq] at h
          exact ⟨m', a', i', rfl,
            Or.inr (Or.inr (Or.inl ⟨by rw [hove], Bool.not_eq_true an ▸ han,
              h.1.symm, h.2.1.symm, h.2.2.symm⟩))⟩
    · rw [if_neg hnull] at h
      by_cases hst : same_type dv ov nc = true
      · rw [if_pos hst] at h
        cases hrec : mergeWalk an nc o rest with
        | error e => rw [hrec] at h; simp at h
        | ok t =>
          obtain ⟨m', a', i'⟩ := t
          rw [hrec] at h
          simp only [Except.ok.injEq, Prod.mk.injEq] at h
          exact ⟨m', a', i', rfl,
            Or.inr (Or.inr (Or.inr ⟨ov, rfl, Bool.not_eq_true (isNullVal ov) ▸ hnull,
              hst, h.1.symm, h.2.1.symm, h.2.2.symm⟩))⟩
      · rw [if_neg hst] at h
        simp at h

theorem mergeWalk_cons_error {an nc : Bool} {o : List (String × YVal)} {dk : String}
    {dv : YVal} {rest : List (String × YVal)} {e : MergeErr}
    (h : mergeWalk an nc o ((dk, dv) :: rest) = .error e) :
    (∃ ov, lookupY dk o = some ov ∧ isNullVal ov = false ∧
      same_type dv ov nc = false ∧
      e = ⟨dk, typeName (tag dv), typeName (tag ov)⟩) ∨
    mergeWalk an nc o rest = .error e := by
  simp only [mergeWalk] at h
  cases hlook : lookupY dk o with
  | none =>
    simp only [hlook] at h
    cases hrec : mergeWalk an nc o rest with
    | error e' =>
      rw [hrec] at h
      simp only [Except.error.injEq] at h
      subst h
      exact Or.inr rfl
    | ok t =>
      obtain ⟨m', a', i'⟩ := t
      rw [hrec] at h
      simp at h
  | some ov =>
    simp only [hlook] at h
    by_cases hnull : isNullVal ov = true
    · rw [if_pos hnull] at h
      by_cases han : an = true
      · rw [if_pos han] at h
        cases hrec : mergeWalk an nc o rest with
        | error e' =>
          rw [hrec] at h
          simp only [Except.error.injEq] at h
          subst h
          exact Or.inr rfl
        | ok t =>
          obtain ⟨m', a', i'⟩ := t
          rw [hrec] at h
          simp at h
      · rw [if_neg han] at h
        cases hrec : mergeWalk an nc o rest with
        | error e' =>
          rw [hrec] at h
          simp only [Except.error.injEq] at h
          subst h
          exact Or.inr rfl
        | ok t =>
          obtain ⟨m', a', i'⟩ := t
          rw [hrec] at h
          simp at h
    · rw [if_neg hnull] at h
      by_cases hst : same_type dv ov nc = true
      · rw [if_pos hst] at h
        cases hrec : mergeWalk an nc o rest with
        | error e' =>
          rw [hrec] at h
          simp only [Except.error.injEq] at h
          subst h
          exact Or.inr rfl
        | ok t =>
          obtain ⟨m', a', i'⟩ := t
          rw [hrec] at h
          simp at h
      · rw [if_neg hst] at h
        simp only [Except.error.injEq] at h
        exact Or.inl ⟨ov, rfl, Bool.not_eq_true (isNullVal ov) ▸ hnull,
          Bool.not_eq_true (same_type dv ov nc) ▸ hst, h.symm⟩


theorem mergeWalk_ok_nil_inv {an nc : Bool} {o m : List (String × YVal)}
    {a i : List String} (h : mergeWalk an nc o [] = .ok (m, a, i)) :
    m = [] ∧ a = [] ∧ i = [] := by
  rw [mergeWalk_nil] at h
  simp only [Except.ok.injEq, Prod.mk.injEq] at h
  exact ⟨h.1.symm, h.2.1.symm, h.2.2.symm⟩

theorem mergeWalk_keys {an nc : Bool} {o : List (String × YVal)} :
    ∀ {dl m : List (String × YVal)} {a i : List String},
      mergeWalk an nc o dl = .ok (m, a, i) → keysOf m = keysOf dl
  | [], m, a, i, h => by
    obtain ⟨rfl, rfl, rfl⟩ := mergeWalk_ok_nil_inv h
    rfl
  | (dk, dv) :: rest, m, a, i, h => by
    obtain ⟨m', a', i', hrec, hc⟩ := mergeWalk_cons_ok h
    have ih := mergeWalk_keys hrec
    rcases hc with ⟨_, rfl, _, _⟩ | ⟨_, _, rfl, _, _⟩ | ⟨_, _, rfl, _, _⟩ |
      ⟨ov, _, _, _, rfl, _, _⟩ <;>
      simp [keysOf_cons, ih]

theorem mergeWalk_vals_nonMap {an nc : Bool} {o : List (String × YVal)}
    (ho : ∀ kv ∈ o, tag kv.2 ≠ TypeTag.tmap) :
    ∀ {dl m : List (String × YVal)} {a i : List String},
      (∀ kv ∈ dl, tag kv.2 ≠ TypeTag.tmap) →
      mergeWalk an nc o dl = .ok (m, a, i) → ∀ kv ∈ m, tag kv.2 ≠ TypeTag.tmap
  | [], m, a, i, _, h => by
    obtain ⟨rfl, rfl, rfl⟩ := mergeWalk_ok_nil_inv h
    simp
  | (dk, dv) :: rest, m, a, i, hd, h => by
    obtain ⟨m', a', i', hrec, hc⟩ := mergeWalk_cons_ok h
    have ih := mergeWalk_vals_nonMap ho (fun kv hkv => hd kv (List.mem_cons_of_mem _ hkv)) hrec
    intro kv hkv
    rcases hc with ⟨_, rfl, _, _⟩ | ⟨_, _, rfl, _, _⟩ | ⟨_, _, rfl, _, _⟩ |
      ⟨ov, hov, _, _, rfl, _, _⟩
    · rcases List.mem_cons.1 hkv with rfl | hkv'
      · exact hd (dk, dv) (by simp)
      · exact ih kv hkv'
    · rcases List.mem_cons.1 hkv with rfl | hkv'
      · simp [tag]
      · exact ih kv hkv'
    · rcases List.mem_cons.1 hkv with rfl | hkv'
      · exact hd (dk, dv) (by simp)
      · exact ih kv hkv'
    · rcases List.mem_cons.1 hkv with rfl | hkv'
      · exact ho (dk, ov) (lookupY_some_mem hov)
      · exact ih kv hkv'

theorem mergeWalk_absent {an nc : Bool} {o : List (String × YVal)} {k : String}
    (hk : lookupY k o = none) :
    ∀ {dl m : List (String × YVal)} {a i : List String},
      mergeWalk an nc o dl = .ok (m, a, i) →
      lookupY k m = lookupY k dl ∧ k ∉ a ∧ k ∉ i
  | [], m, a, i, h => by
    obtain ⟨rfl, rfl, rfl⟩ := mergeWalk_ok_nil_inv h
    simp
  | (dk, dv) :: rest, m, a, i, h => by
    obtain ⟨m', a', i', hrec, hc⟩ := mergeWalk_cons_ok h
    obtain ⟨ih1, ih2, ih3⟩ := mergeWalk_absent hk hrec
    by_cases hdk : dk = k
    · subst hdk
      rcases hc with ⟨_, rfl, rfl, rfl⟩ | ⟨hlk, _, _, _, _⟩ | ⟨hlk, _, _, _, _⟩ |
        ⟨ov, hlk, _, _, _, _, _⟩
      · refine ⟨by simp [lookupY], ih2, ih3⟩
      · rw [hk] at hlk; exact absurd hlk (by simp)
      · rw [hk] at hlk; exact absurd hlk (by simp)
      · rw [hk] at hlk; exact absurd hlk (by simp)
    · rcases hc with ⟨_, rfl, rfl, rfl⟩ | ⟨_, _, rfl, rfl, rfl⟩ | ⟨_, _, rfl, rfl, rfl⟩ |
        ⟨ov, _, _, _, rfl, rfl, rfl⟩
      · exact ⟨by simp [lookupY, hdk, ih1], ih2, ih3⟩
      · exact ⟨by simp [lookupY, hdk, ih1], by simp [hdk, ih2, Ne.symm], ih3⟩
      · exact ⟨by simp [lookupY, hdk, ih1], ih2, by simp [hdk, ih3, Ne.symm]⟩
      · exact ⟨by simp [lookupY, hdk, ih1], by simp [hdk, ih2, Ne.symm], ih3⟩

theorem mergeWalk_null {an nc : Bool} {o : List (String × YVal)} {k : String}
    (hk : lookupY k o = some YVal.vnull) :
    ∀ {dl m : List (String × YVal)} {a i : List String},
      mergeWalk an nc o dl = .ok (m, a, i) → k ∈ keysOf dl →
      (an = true → lookupY k m = some YVal.vnull ∧ k ∈ a) ∧
      (an = false → lookupY k m = lookupY k dl ∧ k ∈ i)
  | [], m, a, i, h, hmem => by simp [keysOf_nil] at hmem
  | (dk, dv) :: rest, m, a, i, h, hmem => by
    obtain ⟨m', a', i', hrec, hc⟩ := mergeWalk_cons_ok h
    by_cases hdk : dk = k
    · subst hdk
      rcases hc with ⟨hlk, _, _, _⟩ | ⟨hlk, han, rfl, rfl, rfl⟩ |
        ⟨hlk, han, rfl, rfl, rfl⟩ | ⟨ov, hlk, hnn, _, _, _, _⟩
      · rw [hk] at hlk; exact absurd hlk (by simp)
      · constructor
        · intro _; exact ⟨by simp [lookupY], by simp⟩
        · intro hf; rw [han] at hf; exact absurd hf (by simp)
      · constructor
        · intro ht; rw [han] at ht; exact absurd ht (by simp)
        · intro _; exact ⟨by simp [lookupY], by simp⟩
      · rw [hk] at hlk
        have hove : ov = YVal.vnull := by simpa using hlk.symm
        rw [hove] at hnn
        exact absurd hnn (by simp [isNullVal])
    · have hmem' : k ∈ keysOf rest := by
        rw [keysOf_cons] at hmem
        rcases List.mem_cons.1 hmem with rfl | hm
        · exact absurd rfl hdk
        · exact hm
      obtain ⟨ih1, ih2⟩ := mergeWalk_null hk hrec hmem'
      rcases hc with ⟨_, rfl, rfl, rfl⟩ | ⟨_, _, rfl, rfl, rfl⟩ | ⟨_, _, rfl, rfl, rfl⟩ |
        ⟨ov, _, _, _, rfl, rfl, rfl⟩
      · constructor
        · intro ht; obtain ⟨j1, j2⟩ := ih1 ht
          exact ⟨by simp [lookupY, hdk, j1], j2⟩
        · intro hf; obtain ⟨j1, j2⟩ := ih2 hf
          exact ⟨by simp [lookupY, hdk, j1], j2⟩
      · constructor
        · intro ht; obtain ⟨j1, j2⟩ := ih1 ht
          exact ⟨by simp [lookupY, hdk, j1], by simp [j2]⟩
        · intro hf; obtain ⟨j1, j2⟩ := ih2 hf
          exact ⟨by simp [lookupY, hdk, j1], j2⟩
      · constructor
        · intro ht; obtain ⟨j1, j2⟩ := ih1 ht
          exact ⟨by simp [lookupY, hdk, j1], j2⟩
        · intro hf; obtain ⟨j1, j2⟩ := ih2 hf
          exact ⟨by simp [lookupY, hdk, j1], by simp [j2]⟩
      · constructor
        · intro ht; obtain ⟨j1, j2⟩ := ih1 ht
          exact ⟨by simp [lookupY, hdk, j1], by simp [j2]⟩
        · intro hf; obtain ⟨j1, j2⟩ := ih2 hf
          exact ⟨by simp [lookupY, hdk, j1], j2⟩

theorem mergeWalk_ok_same_type {an nc : Bool} {o : List (String × YVal)} :
    ∀ {dl m : List (String × YVal)} {a i : List String},
      mergeWalk an nc o dl = .ok (m, a, i) →
      ∀ dk dv, (dk, dv) ∈ dl → ∀ ov, lookupY dk o = some ov → isNullVal ov = false →
        same_type dv ov nc = true
  | [], m, a, i, h => by simp
  | (dk0, dv0) :: rest, m, a, i, h => by
    obtain ⟨m', a', i', hrec, hc⟩ := mergeWalk_cons_ok h
    have ih := mergeWalk_ok_same_type hrec
    intro dk dv hmem ov hov hnn
    rcases List.mem_cons.1 hmem with heq | hmem'
    · obtain ⟨rfl, rfl⟩ : dk0 = dk ∧ dv0 = dv := by
        injection heq with h1 h2
        exact ⟨h1.symm, h2.symm⟩
      rcases hc with ⟨hlk, _, _, _⟩ | ⟨hlk, _, _, _, _⟩ | ⟨hlk, _, _, _, _⟩ |
        ⟨ov', hlk, hnn', hst, _, _, _⟩
      · rw [hov] at hlk; exact absurd hlk (by simp)
      · rw [hov] at hlk
        have : ov = YVal.vnull := by simpa using hlk
        rw [this] at hnn
        exact absurd hnn (by simp [isNullVal])
      · rw [hov] at hlk
        have : ov = YVal.vnull := by simpa using hlk
        rw [this] at hnn
        exact absurd hnn (by simp [isNullVal])
      · rw [hov] at hlk
        have : ov = ov' := by simpa using hlk
        exact this ▸ hst
    · exact ih dk dv hmem' ov hov hnn

theorem mergeWalk_error_of_mismatch {an nc : Bool} {o dl : List (String × YVal)}
    {dk : String} {dv ov : YVal} (hmem : (dk, dv) ∈ dl)
    (hov : lookupY dk o = some ov) (hnn : isNullVal ov = false)
    (hst : same_type dv ov nc = false) :
    ∃ e, mergeWalk an nc o dl = .error e := by
  cases hr : mergeWalk an nc o dl with
  | error e => exact ⟨e, rfl⟩
  | ok t =>
    obtain ⟨m, a, i⟩ := t
    have := mergeWalk_ok_same_type hr dk dv hmem ov hov hnn
    rw [hst] at this
    exact absurd this (by simp)

theorem mergeWalk_error_mem {an nc : Bool} {o : List (String × YVal)} :
    ∀ {dl : List (String × YVal)} {e : MergeErr},
      mergeWalk an nc o dl = .error e →
      ∃ dv ov, (e.path, dv) ∈ dl ∧ lookupY e.path o = some ov ∧
        isNullVal ov = false ∧ same_type dv ov nc = false ∧
        e.defaultType = typeName (tag dv) ∧ e.overrideType = typeName (tag ov)
  | [], e, h => by rw [mergeWalk_nil] at h; exact absurd h (by simp)
  | (dk, dv) :: rest, e, h => by
    rcases mergeWalk_cons_error h with ⟨ov, hlk, hnn, hst, rfl⟩ | hrec
    · exact ⟨dv, ov, by simp, hlk, hnn, hst, rfl, rfl⟩
    · obtain ⟨dv', ov', hmem, hlk, hnn, hst, h1, h2⟩ := mergeWalk_error_mem hrec
      exact ⟨dv', ov', List.mem_cons_of_mem _ hmem, hlk, hnn, hst, h1, h2⟩


theorem flatten_cons_nonmap {sep : Char} {k : String} {w : YVal}
    (hw : tag w ≠ TypeTag.tmap) (r : List (String × YVal)) :
    flatten sep ((k, w) :: r) = (k, w) :: flatten sep r := by
  cases w <;> simp [flatten, tag] at hw ⊢

theorem wfDoc_cons_nonmap_intro {sep : Char} {k : String} {w : YVal}
    (hw : tag w ≠ TypeTag.tmap) {rest : List (String × YVal)}
    (h1 : sep ∉ k.data) (h2 : k ∉ keysOf rest) (h4 : wfDoc sep rest = true) :
    wfDoc sep ((k, w) :: rest) = true := by
  cases w <;> simp [wfDoc, h1, h2, h4, tag] at hw ⊢

theorem wfDoc_cons_map_intro {sep : Char} {k : String} {m rest : List (String × YVal)}
    (h1 : sep ∉ k.data) (h2 : k ∉ keysOf rest) (h3 : m ≠ [])
    (h5 : wfDoc sep m = true) (h4 : wfDoc sep rest = true) :
    wfDoc sep ((k, YVal.vmap m) :: rest) = true := by
  simp [wfDoc, h1, h2, h3, h4, h5]

theorem flatten_vals_nonMap {sep : Char} (d : List (String × YVal)) :
    ∀ kv ∈ flatten sep d, tag kv.2 ≠ TypeTag.tmap := by
  induction d using flattenSegs.induct with
  | case1 => simp [flatten]
  | case2 k v rest ihm ihr =>
    intro kv hkv
    cases v
    case vmap m =>
      simp only [flatten] at hkv
      rcases List.mem_append.1 hkv with h | h
      · rcases List.mem_map.1 h with ⟨a, ha, rfl⟩
        exact ihm a ha
      · exact ihr kv h
    all_goals
      simp only [flatten] at hkv
      rcases List.mem_append.1 hkv with h | h
      · rcases List.mem_singleton.1 h with rfl
        simp [tag]
      · exact ihr kv h

theorem keysOf_eq_nil {m : List (String × YVal)} (h : keysOf m = []) : m = [] := by
  cases m with
  | nil => rfl
  | cons kv r =>
    obtain ⟨k, v⟩ := kv
    simp [keysOf_cons] at h

theorem keys_split {A : List String} :
    ∀ {l : List (String × YVal)} {B : List String}, keysOf l = A ++ B →
      ∃ l1 l2, l = l1 ++ l2 ∧ keysOf l1 = A ∧ keysOf l2 = B := by
  induction A with
  | nil =>
    intro l B h
    exact ⟨[], l, rfl, rfl, by simpa using h⟩
  | cons a A ih =>
    intro l B h
    cases l with
    | nil => simp [keysOf_nil] at h
    | cons kv l' =>
      obtain ⟨k0, w0⟩ := kv
      rw [keysOf_cons, List.cons_append] at h
      have h1 : k0 = a := by injection h
      have h2 : keysOf l' = A ++ B := by injection h
      obtain ⟨l1, l2, hl, hk1, hk2⟩ := ih h2
      exact ⟨(k0, w0) :: l1, l2, by rw [hl]; rfl, by rw [keysOf_cons, hk1, h1], hk2⟩

theorem keys_map_pref {g : String → String} :
    ∀ {K : List String} {l1 : List (String × YVal)}, keysOf l1 = K.map g →
      ∃ l1', keysOf l1' = K ∧ l1 = l1'.map (fun kv => (g kv.1, kv.2)) := by
  intro K
  induction K with
  | nil =>
    intro l1 h
    have : l1 = [] := keysOf_eq_nil (by simpa using h)
    exact ⟨[], rfl, by simp [this]⟩
  | cons s K ih =>
    intro l1 h
    cases l1 with
    | nil => simp [keysOf_nil] at h
    | cons kv t =>
      obtain ⟨k0, w0⟩ := kv
      rw [keysOf_cons, List.map_cons] at h
      have h1 : k0 = g s := by injection h
      have h2 : keysOf t = K.map g := by injection h
      obtain ⟨t', hk, hmap⟩ := ih h2
      exact ⟨(s, w0) :: t', by rw [keysOf_cons, hk],
        by rw [List.map_cons, ← hmap, h1]⟩

theorem exists_wf_doc {sep : Char} (d : List (String × YVal)) :
    wfDoc sep d = true →
    ∀ l : List (String × YVal), keysOf l = keysOf (flatten sep d) →
      (∀ kv ∈ l, tag kv.2 ≠ TypeTag.tmap) →
      ∃ d', wfDoc sep d' = true ∧ flatten sep d' = l ∧ keysOf d' = keysOf d := by
  induction d using flattenSegs.induct with
  | case1 =>
    intro _ l hkeys _
    have hl : l = [] := keysOf_eq_nil (by simpa [flatten] using hkeys)
    subst hl
    exact ⟨[], by simp [wfDoc], by simp [flatten], rfl⟩
  | case2 k v rest ihm ihr =>
    intro hw l hkeys hvals
    obtain ⟨hksep, hkrest, hv, hwrest⟩ := wfDoc_cons hw
    cases v
    case vmap m =>
      simp only [flatten] at hkeys
      rw [keysOf_append] at hkeys
      have hA : keysOf ((flatten sep m).map (fun kv => (k ++ sepStr sep ++ kv.1, kv.2)))
          = (keysOf (flatten sep m)).map (fun s => k ++ sepStr sep ++ s) := by
        simp [keysOf, List.map_map]
      rw [hA] at hkeys
      obtain ⟨l1, l2, hl, hk1, hk2⟩ := keys_split hkeys
      obtain ⟨l1', hk1', hmap⟩ := keys_map_pref hk1
      have hvals1 : ∀ kv ∈ l1', tag kv.2 ≠ TypeTag.tmap := by
        intro kv hkv
        have hmem : (k ++ sepStr sep ++ kv.1, kv.2) ∈ l := by
          rw [hl]
          refine List.mem_append.2 (Or.inl ?_)
          rw [hmap]
          exact List.mem_map.2 ⟨kv, hkv, rfl⟩
        exact hvals (k ++ sepStr sep ++ kv.1, kv.2) hmem
      have hvals2 : ∀ kv ∈ l2, tag kv.2 ≠ TypeTag.tmap := by
        intro kv hkv
        have hmem : kv ∈ l := by
          rw [hl]
          exact List.mem_append.2 (Or.inr hkv)
        exact hvals kv hmem
      obtain ⟨m', hwm, hfm, hkm⟩ := ihm hv.2 l1' hk1' hvals1
      obtain ⟨rest', hwr, hfr, hkr⟩ := ihr hwrest l2 hk2 hvals2
      refine ⟨(k, YVal.vmap m') :: rest', ?_, ?_, ?_⟩
      · apply wfDoc_cons_map_intro hksep (hkr ▸ hkrest) ?_ hwm hwr
        intro hm'
        have : keysOf m = ([] : List String) := by rw [← hkm, hm']; rfl
        exact hv.1 (keysOf_eq_nil this)
      · simp only [flatten]
        rw [hfm, hfr, ← hmap, hl]
      · rw [keysOf_cons, keysOf_cons, hkr]
    all_goals
      simp only [flatten, List.singleton_append] at hkeys
      rw [keysOf_cons] at hkeys
      cases l with
      | nil => simp [keysOf_nil] at hkeys
      | cons kv l2 =>
        obtain ⟨k0, w0⟩ := kv
        rw [keysOf_cons] at hkeys
        have h1 : k0 = k := by injection hkeys
        have h2 : keysOf l2 = keysOf (flatten sep rest) := by injection hkeys
        subst h1
        have hw0 : tag w0 ≠ TypeTag.tmap := hvals (k0, w0) (by simp)
        obtain ⟨rest', hwr, hfr, hkr⟩ := ihr hwrest l2 h2
          (fun kv hkv => hvals kv (List.mem_cons_of_mem _ hkv))
        refine ⟨(k0, w0) :: rest', ?_, ?_, ?_⟩
        · exact wfDoc_cons_nonmap_intro hw0 hksep (hkr ▸ hkrest) hwr
        · rw [flatten_cons_nonmap hw0, hfr]
        · rw [keysOf_cons, keysOf_cons, hkr]


/-- `is_valid_name` (helpers.py:252-285).  The input is any Python value
(`YVal`): non-strings fail the `isinstance` check.  The character test models
`c == '_' or (c.isascii() and c.isalnum())`; Python's `s[0].isdigit()` accepts
Unicode digits beyond ASCII, but every such character is rejected by the
character test in both Python and this model, so `Char.isDigit` gives the same
function value. -/
def is_valid_name (v : YVal) : Bool :=
  match v with
  | YVal.vstr s =>
    if s.data.isEmpty then false
    else if s.data.length > 255 then false
    else if (s.data.headD ' ').isDigit then false
    else s.data.all (fun c => c = '_' || (c.toNat ≤ 127 && c.isAlphanum))
  | _ => false

/-- Python `str.strip()` on the whitespace characters relevant here
(space, tab, CR, LF). -/
def pyStrip (s : String) : String :=
  ⟨(((s.data.dropWhile Char.isWhitespace).reverse.dropWhile Char.isWhitespace).reverse)⟩

/-- Python `str.rstrip('/')`: removes the whole trailing run of `'/'`. -/
def rstripSlash (s : String) : String :=
  ⟨((s.data.reverse.dropWhile (fun c => c = '/')).reverse)⟩

/-- The segment loop of `is_valid_namespace` (helpers.py:326-339). -/
def checkSegments : List (List Char) → Bool × String
  | [] => (true, "")
  | item :: rest =>
    if item.isEmpty then (false, "Consecutive '/' are not allowed in a namespace")
    else if !(is_valid_name (YVal.vstr ⟨item⟩)) then
      (false, "Namespace segments must be ASCII [A-Za-z0-9_] only")
    else checkSegments rest

/-- `is_valid_namespace` (helpers.py:288-339): accept `""` and `"/"`; strip
exactly one leading and one trailing `'/'`; reject if empty; split on `'/'`
and validate every segment. -/
def is_valid_namespace (ns : String) : Bool × String :=
  if ns = "" ∨ ns = "/" then (true, "")
  else
    let l1 := if ns.data.head? = some '/' then ns.data.tail else ns.data
    let l2 := if l1.getLast? = some '/' then l1.dropLast else l1
    if l2.isEmpty then
      (false, "Namespace cannot be empty after removing leading and trailing '/'")
    else
      checkSegments (l2.splitOn '/')

/-- `create_global_namespace` (helpers.py:105-131).  The `ValueError` raised
for non-string input is outside the model (the argument is typed); the
`RuntimeError` for an invalid namespace is the `.error` case. -/
def create_global_namespace (ns0 : String) : Except String String :=
  let ns1 := pyStrip ns0
  if ns1 = "" then .ok "/"
  else if ns1 = "/" then .ok "/"
  else
    let ns2 := rstripSlash ns1
    let ns3 := if ns2.data.head? = some '/' then ns2 else "/" ++ ns2
    let res := is_valid_namespace ns3
    if res.1 then .ok ns3
    else .error ("Invalid namespace '" ++ ns3 ++ "': " ++ res.2)

/-- ` create_robot_prefix` (helpers.py:182-198): strip, validate as a Name,
return unchanged when already ending in `'_'`, else append `'_'`. -/
def create_robot_prefix (robot_name : String) : Except String String :=
  let r := pyStrip robot_name
  if !(is_valid_name (YVal.vstr r)) then
    .error ("'" ++ r ++ "' must be a non-empty string with ASCII [A-Za-z0-9_] only")
  else if r.data.getLast? = some '_' then .ok r
  else .ok (r ++ "_")

/-- The character class `[A-Za-z0-9_]` spelled out as the spec writes it
(underscore, or ASCII codes 65-90, 97-122, 48-57). -/
def specCharOk (c : Char) : Prop :=
  c = '_' ∨ (65 ≤ c.toNat ∧ c.toNat ≤ 90) ∨ (97 ≤ c.toNat ∧ c.toNat ≤ 122) ∨
    (48 ≤ c.toNat ∧ c.toNat ≤ 57)

/-- Whether a character list contains two consecutive `'/'`. -/
def hasDoubleSlash : List Char → Bool
  | [] => false
  | [_] => false
  | a :: b :: rest => (a = '/' && b = '/') || hasDoubleSlash (b :: rest)

/-- The candidate string that `create_global_namespace` hands to validation:
the stripped input with its whole trailing run of `'/'` removed and a leading
`'/'` ensured (or `"/"` when the early returns fire). -/
def normCandidate (s : String) : String :=
  let t := pyStrip s
  if t = "" ∨ t = "/" then "/"
  else
    let u := rstripSlash t
    if u.data.head? = some '/' then u else "/" ++ u


theorem uint32_le_iff {a b : UInt32} : (a ≤ b) ↔ (a.toNat ≤ b.toNat) := Iff.rfl

theorem alnum_ascii_iff (c : Char) : (c.toNat ≤ 127 && c.isAlphanum) = true ↔
    ((65 ≤ c.toNat ∧ c.toNat ≤ 90) ∨ (97 ≤ c.toNat ∧ c.toNat ≤ 122) ∨
     (48 ≤ c.toNat ∧ c.toNat ≤ 57)) := by
  simp only [Bool.and_eq_true, decide_eq_true_eq, Char.isAlphanum, Char.isAlpha,
    Char.isUpper, Char.isLower, Char.isDigit, Bool.or_eq_true, ge_iff_le]
  simp only [uint32_le_iff]
  have e1 : (65 : UInt32).toNat = 65 := rfl
  have e2 : (90 : UInt32).toNat = 90 := rfl
  have e3 : (97 : UInt32).toNat = 97 := rfl
  have e4 : (122 : UInt32).toNat = 122 := rfl
  have e5 : (48 : UInt32).toNat = 48 := rfl
  have e6 : (57 : UInt32).toNat = 57 := rfl
  have e7 : ∀ d : Char, d.val.toNat = d.toNat := fun _ => rfl
  simp only [e1, e2, e3, e4, e5, e6, e7]
  omega

theorem isDigit_iff (c : Char) : c.isDigit = true ↔ (48 ≤ c.toNat ∧ c.toNat ≤ 57) := by
  simp only [Char.isDigit, Bool.and_eq_true, decide_eq_true_eq, ge_iff_le]
  simp only [uint32_le_iff]
  have e5 : (48 : UInt32).toNat = 48 := rfl
  have e6 : (57 : UInt32).toNat = 57 := rfl
  have e7 : ∀ d : Char, d.val.toNat = d.toNat := fun _ => rfl
  simp only [e5, e6, e7]

theorem charOk_iff (c : Char) :
    (c = '_' || (c.toNat ≤ 127 && c.isAlphanum)) = true ↔ specCharOk c := by
  simp only [Bool.or_eq_true, decide_eq_true_eq, specCharOk]
  exact or_congr Iff.rfl
    ((alnum_ascii_iff c).trans (by constructor <;> (rintro (h | h | h) <;> omega)))

theorem specCharOk_not_ws {c : Char} (h : specCharOk c) :
    c.isWhitespace = false ∧ c ≠ '/' := by
  rcases h with rfl | h | h | h
  · exact ⟨rfl, by decide⟩
  all_goals
    constructor
    · simp only [Char.isWhitespace, Bool.or_eq_false_iff, decide_eq_false_iff_not]
      refine ⟨⟨⟨?_, ?_⟩, ?_⟩, ?_⟩ <;> (rintro rfl; revert h; decide)
    · rintro rfl
      revert h
      decide

theorem valid_name_parts {s : String} (h : is_valid_name (YVal.vstr s) = true) :
    s.data ≠ [] ∧ s.data.length ≤ 255 ∧
      (∀ c0, s.data.head? = some c0 → c0.isDigit = false) ∧
      ∀ c ∈ s.data, specCharOk c := by
  simp only [is_valid_name] at h
  split_ifs at h with h1 h2 h3
  refine ⟨by simpa using h1, by omega, ?_, ?_⟩
  · intro c0 hc0
    cases hd : s.data with
    | nil => rw [hd] at hc0; simp at hc0
    | cons x xs =>
      rw [hd] at hc0
      simp only [List.head?_cons, Option.some.injEq] at hc0
      subst hc0
      rw [hd] at h3
      simpa using h3
  · intro c hc
    exact (charOk_iff c).1 (by simpa using (List.all_eq_true.1 h) c hc)

theorem valid_name_intro {s : String} (h1 : s.data ≠ []) (h2 : s.data.length ≤ 255)
    (h3 : ∀ c0, s.data.head? = some c0 → c0.isDigit = false)
    (h4 : ∀ c ∈ s.data, specCharOk c) :
    is_valid_name (YVal.vstr s) = true := by
  simp only [is_valid_name]
  rw [if_neg (by simpa using h1), if_neg (by omega)]
  rw [if_neg ?_]
  · exact List.all_eq_true.2 (fun c hc => (charOk_iff c).2 (h4 c hc))
  · cases hd : s.data with
    | nil => exact absurd hd h1
    | cons x xs =>
      have := h3 x (by rw [hd]; rfl)
      simp [this]

/-- Claim C6: `is_valid_name` returns true exactly on strings that are
non-empty, at most 255 characters, do not start with a digit, and consist
only of characters in `[A-Za-z0-9_]`; every non-string value and every other
string yields false. -/
theorem C6_is_valid_name_iff (v : YVal) :
    is_valid_name v = true ↔
      ∃ s, v = YVal.vstr s ∧ s.data ≠ [] ∧ s.data.length ≤ 255 ∧
        (∀ c0, s.data.head? = some c0 → ¬(48 ≤ c0.toNat ∧ c0.toNat ≤ 57)) ∧
        ∀ c ∈ s.data, specCharOk c := by
  cases v
  case vstr s =>
    constructor
    · intro h
      obtain ⟨h1, h2, h3, h4⟩ := valid_name_parts h
      refine ⟨s, rfl, h1, h2, ?_, h4⟩
      intro c0 hc0
      rw [← isDigit_iff]
      simp [h3 c0 hc0]
    · rintro ⟨s', hs, h1, h2, h3, h4⟩
      obtain rfl : s = s' := by injection hs
      apply valid_name_intro h1 h2 ?_ h4
      intro c0 hc0
      have := h3 c0 hc0
      rw [← isDigit_iff] at this
      simpa using this
  all_goals
    simp [is_valid_name]


theorem dropWhile_all_false {p : Char → Bool} :
    ∀ {l : List Char}, (∀ c ∈ l, p c = false) → l.dropWhile p = l
  | [], _ => rfl
  | a :: l, h => by
    rw [List.dropWhile_cons, if_neg (by simp [h a (by simp)])]

theorem pyStrip_eq_self {s : String} (h : ∀ c ∈ s.data, c.isWhitespace = false) :
    pyStrip s = s := by
  apply String.ext
  show (((s.data.dropWhile Char.isWhitespace).reverse.dropWhile
    Char.isWhitespace).reverse) = s.data
  rw [dropWhile_all_false h]
  rw [dropWhile_all_false (fun c hc => h c (List.mem_reverse.1 hc))]
  exact List.reverse_reverse _

theorem dropSlash_rev {l : List Char} (h : l.getLast? ≠ some '/') :
    l.reverse.dropWhile (fun c => decide (c = '/')) = l.reverse := by
  cases hrev : l.reverse with
  | nil => rfl
  | cons a t =>
    have ha : l.getLast? = some a := by
      rw [← List.head?_reverse, hrev]
      rfl
    have hne : a ≠ '/' := fun he => h (he ▸ ha)
    rw [List.dropWhile_cons, if_neg (by simp [hne])]

theorem rstripSlash_eq_self {s : String} (h : s.data.getLast? ≠ some '/') :
    rstripSlash s = s := by
  apply String.ext
  show ((s.data.reverse.dropWhile _).reverse) = s.data
  rw [dropSlash_rev h, List.reverse_reverse]

theorem rstripSlash_append_slash {s : String} (h : s.data.getLast? ≠ some '/') :
    rstripSlash (s ++ "/") = s := by
  apply String.ext
  show (((s ++ "/").data.reverse.dropWhile _).reverse) = s.data
  have hd : (s ++ "/").data = s.data ++ ['/'] := by simp
  rw [hd, List.reverse_append]
  show ((('/' :: s.data.reverse).dropWhile _).reverse) = s.data
  rw [List.dropWhile_cons, if_pos (by simp), dropSlash_rev h, List.reverse_reverse]

theorem rstripSlash_getLast (s : String) :
    (rstripSlash s).data.getLast? ≠ some '/' := by
  show ((s.data.reverse.dropWhile _).reverse).getLast? ≠ some '/'
  rw [List.getLast?_reverse]
  intro hc
  have := List.head?_dropWhile_not (fun c => decide (c = '/')) s.data.reverse
  rw [hc] at this
  simp at this

theorem valid_name_char_facts {s : String} (h : is_valid_name (YVal.vstr s) = true) :
    (∀ c ∈ s.data, c.isWhitespace = false) ∧ (∀ c ∈ s.data, c ≠ '/') := by
  obtain ⟨_, _, _, h4⟩ := valid_name_parts h
  exact ⟨fun c hc => (specCharOk_not_ws (h4 c hc)).1,
    fun c hc => (specCharOk_not_ws (h4 c hc)).2⟩

theorem valid_name_ne_empty {s : String} (h : is_valid_name (YVal.vstr s) = true) :
    s ≠ "" := by
  intro he
  obtain ⟨h1, _, _, _⟩ := valid_name_parts h
  exact h1 (by rw [he])

theorem valid_name_ne_slash {s : String} (h : is_valid_name (YVal.vstr s) = true) :
    s ≠ "/" := by
  intro he
  have := (valid_name_char_facts h).2 '/' (by rw [he]; simp)
  exact this rfl

theorem valid_name_head_ne_slash {s : String} (h : is_valid_name (YVal.vstr s) = true) :
    s.data.head? ≠ some '/' := by
  intro hc
  exact (valid_name_char_facts h).2 '/' (List.mem_of_mem_head? (by rw [hc]; rfl)) rfl

theorem valid_name_getLast_ne_slash {s : String} (h : is_valid_name (YVal.vstr s) = true) :
    s.data.getLast? ≠ some '/' := by
  intro hc
  exact (valid_name_char_facts h).2 '/' (List.mem_of_getLast?_eq_some hc) rfl

theorem splitOn_no_slash {s : String} (h : ∀ c ∈ s.data, c ≠ '/') :
    s.data.splitOn '/' = [s.data] := by
  apply List.splitOnP_eq_single
  intro x hx
  simp [h x hx]

theorem checkSegments_single_valid {s : String}
    (h : is_valid_name (YVal.vstr s) = true) (hne : s.data ≠ []) :
    checkSegments [s.data] = (true, "") := by
  have heta : (⟨s.data⟩ : String) = s := rfl
  simp only [checkSegments]
  rw [if_neg (by simpa using hne), if_neg (by rw [heta]; simp [h])]

theorem is_valid_namespace_slash_name {s : String}
    (h : is_valid_name (YVal.vstr s) = true) :
    is_valid_namespace ("/" ++ s) = (true, "") := by
  obtain ⟨h1, _, _, _⟩ := valid_name_parts h
  have hd : ("/" ++ s).data = '/' :: s.data := by simp
  simp only [is_valid_namespace]
  rw [if_neg ?hcond]
  case hcond =>
    rintro (he | he)
    · have := congrArg String.data he
      rw [hd] at this
      simp at this
    · have := congrArg String.data he
      rw [hd] at this
      simp only [List.cons.injEq] at this
      exact h1 this.2
  rw [hd]
  have e1 : (if ('/' :: s.data).head? = some '/' then ('/' :: s.data).tail
      else ('/' :: s.data)) = s.data := by simp
  rw [e1]
  rw [if_neg (valid_name_getLast_ne_slash h)]
  rw [if_neg (by simpa using h1)]
  rw [splitOn_no_slash (valid_name_char_facts h).2]
  exact checkSegments_single_valid h h1


theorem slash_name_data (ns : String) : ("/" ++ ns).data = '/' :: ns.data := by simp

theorem slash_name_getLast_ne {ns : String}
    (h : is_valid_name (YVal.vstr ns) = true) :
    ("/" ++ ns).data.getLast? ≠ some '/' := by
  obtain ⟨hne, _, _, _⟩ := valid_name_parts h
  rw [slash_name_data]
  cases hnsd : ns.data with
  | nil => exact absurd hnsd hne
  | cons x xs =>
    rw [List.getLast?_cons_cons, ← hnsd]
    exact valid_name_getLast_ne_slash h

/-- Claim C7: `create_global_namespace` sends `""` and `"/"` to `"/"`, and for
every Name-valid single segment `ns` sends `ns`, `/ns`, `ns/` and `/ns/` all
to `/ns`. -/
theorem C7_create_global_namespace :
    create_global_namespace "" = .ok "/" ∧
    create_global_namespace "/" = .ok "/" ∧
    ∀ ns : String, is_valid_name (YVal.vstr ns) = true →
      create_global_namespace ns = .ok ("/" ++ ns) ∧
      create_global_namespace ("/" ++ ns) = .ok ("/" ++ ns) ∧
      create_global_namespace (ns ++ "/") = .ok ("/" ++ ns) ∧
      create_global_namespace ("/" ++ ns ++ "/") = .ok ("/" ++ ns) := by
  refine ⟨rfl, rfl, ?_⟩
  intro ns h
  have hws := (valid_name_char_facts h).1
  obtain ⟨hne, _, _, _⟩ := valid_name_parts h
  have hne' : ns ≠ "" := valid_name_ne_empty h
  have hnsl : ns ≠ "/" := valid_name_ne_slash h
  have hval : is_valid_namespace ("/" ++ ns) = (true, "") := is_valid_namespace_slash_name h
  have hgl : ns.data.getLast? ≠ some '/' := valid_name_getLast_ne_slash h
  have hhd : ns.data.head? ≠ some '/' := valid_name_head_ne_slash h
  have hgl2 : ("/" ++ ns).data.getLast? ≠ some '/' := slash_name_getLast_ne h
  have hws2 : ∀ c ∈ ("/" ++ ns).data, c.isWhitespace = false := by
    intro c hc
    rw [slash_name_data] at hc
    rcases List.mem_cons.1 hc with rfl | hc'
    · decide
    · exact hws c hc'
  have hslne : "/" ++ ns ≠ "" := by
    intro he
    have := congrArg String.data he
    rw [slash_name_data] at this
    simp at this
  have hslnsl : "/" ++ ns ≠ "/" := by
    intro he
    have := congrArg String.data he
    rw [slash_name_data] at this
    simp only [List.cons.injEq] at this
    exact hne this.2
  have hhd2 : ("/" ++ ns).data.head? = some '/' := by
    rw [slash_name_data]
    rfl
  refine ⟨?_, ?_, ?_, ?_⟩
  · simp only [create_global_namespace]
    rw [pyStrip_eq_self hws, if_neg hne', if_neg hnsl,
      rstripSlash_eq_self hgl, if_neg hhd, hval]
    rfl
  · simp only [create_global_namespace]
    rw [pyStrip_eq_self hws2, if_neg hslne, if_neg hslnsl,
      rstripSlash_eq_self hgl2, if_pos hhd2, hval]
    rfl
  · have hws3 : ∀ c ∈ (ns ++ "/").data, c.isWhitespace = false := by
      intro c hc
      rw [show (ns ++ "/").data = ns.data ++ ['/'] by simp] at hc
      rcases List.mem_append.1 hc with hc' | hc'
      · exact hws c hc'
      · rcases List.mem_singleton.1 hc' with rfl
        decide
    have hne3 : ns ++ "/" ≠ "" := by
      intro he
      have := congrArg String.data he
      simp at this
    have hnsl3 : ns ++ "/" ≠ "/" := by
      intro he
      have := congrArg String.data he
      simp only [String.data_append] at this
      have hlen := congrArg List.length this
      simp at hlen
      exact hne (List.length_eq_zero.1 hlen)
    simp only [create_global_namespace]
    rw [pyStrip_eq_self hws3, if_neg hne3, if_neg hnsl3,
      rstripSlash_append_slash hgl, if_neg hhd, hval]
    rfl
  · have hws4 : ∀ c ∈ ("/" ++ ns ++ "/").data, c.isWhitespace = false := by
      intro c hc
      rw [show ("/" ++ ns ++ "/").data = ("/" ++ ns).data ++ ['/'] by simp] at hc
      rcases List.mem_append.1 hc with hc' | hc'
      · exact hws2 c hc'
      · rcases List.mem_singleton.1 hc' with rfl
        decide
    have hne4 : "/" ++ ns ++ "/" ≠ "" := by
      intro he
      have := congrArg String.data he
      simp at this
    have hnsl4 : "/" ++ ns ++ "/" ≠ "/" := by
      intro he
      have := congrArg String.data he
      simp only [String.data_append] at this
      have hlen := congrArg List.length this
      simp at hlen
    simp only [create_global_namespace]
    rw [pyStrip_eq_self hws4, if_neg hne4, if_neg hnsl4,
      rstripSlash_append_slash hgl2, if_pos hhd2, hval]
    rfl

/-- Witness for C7 at the concrete name `ns`. -/
theorem C7_witness :
    is_valid_name (YVal.vstr "ns") = true ∧
    create_global_namespace "ns" = .ok "/ns" ∧
    create_global_namespace "/ns" = .ok "/ns" ∧
    create_global_namespace "ns/" = .ok "/ns" ∧
    create_global_namespace "/ns/" = .ok "/ns" := by
  have h : is_valid_name (YVal.vstr "ns") = true := by decide
  obtain ⟨h1, h2, h3, h4⟩ := C7_create_global_namespace.2.2 "ns" h
  exact ⟨h, h1, h2, h3, h4⟩


theorem tail_modifyHead {f : List Char → List Char} :
    ∀ l : List (List Char), (l.modifyHead f).tail = l.tail
  | [] => rfl
  | _ :: _ => rfl

theorem splitOn_slash_cons (r : List Char) :
    ('/' :: r).splitOn '/' = [] :: r.splitOn '/' := by
  simp [List.splitOn, List.splitOnP_cons]

theorem splitOn_other_cons {a : Char} (ha : a ≠ '/') (r : List Char) :
    (a :: r).splitOn '/' = (r.splitOn '/').modifyHead (List.cons a) := by
  simp [List.splitOn, List.splitOnP_cons, ha]

theorem mem_nil_splitOn_tail :
    ∀ {t : List Char}, hasDoubleSlash t = true → [] ∈ (t.splitOn '/').tail
  | [], h => by simp [hasDoubleSlash] at h
  | [_], h => by simp [hasDoubleSlash] at h
  | a :: b :: rest, h => by
    simp only [hasDoubleSlash, Bool.or_eq_true, Bool.and_eq_true,
      decide_eq_true_eq] at h
    rcases h with ⟨rfl, rfl⟩ | h
    · rw [splitOn_slash_cons, splitOn_slash_cons]
      simp
    · have ih := mem_nil_splitOn_tail h
      by_cases ha : a = '/'
      · subst ha
        rw [splitOn_slash_cons]
        exact List.mem_of_mem_tail ih
      · rw [splitOn_other_cons ha, tail_modifyHead]
        exact ih

theorem checkSegments_mem_nil :
    ∀ {items : List (List Char)}, [] ∈ items → (checkSegments items).1 = false
  | item :: rest, h => by
    simp only [checkSegments]
    by_cases hi : item.isEmpty = true
    · rw [if_pos hi]
    · rw [if_neg hi]
      have hr : [] ∈ rest := by
        rcases List.mem_cons.1 h with rfl | h'
        · exact absurd (show ([] : List Char).isEmpty = true from rfl) hi
        · exact h'
      by_cases hv : (!(is_valid_name (YVal.vstr ⟨item⟩))) = true
      · rw [if_pos hv]
      · rw [if_neg hv]
        exact checkSegments_mem_nil hr

theorem is_valid_namespace_dd {c : String} (hdd : hasDoubleSlash c.data = true)
    (hh : c.data.head? = some '/') (hl : c.data.getLast? ≠ some '/') :
    (is_valid_namespace c).1 = false := by
  obtain ⟨t, hdata⟩ : ∃ t, c.data = '/' :: t := by
    cases hd : c.data with
    | nil => rw [hd] at hh; simp at hh
    | cons x xs =>
      rw [hd] at hh
      simp only [List.head?_cons, Option.some.injEq] at hh
      exact ⟨xs, by rw [hh]⟩
  have hcne : c ≠ "" := by
    intro he
    rw [he] at hdata
    simp at hdata
  have ht_ne : t ≠ [] := by
    rintro rfl
    rw [hdata] at hdd
    simp [hasDoubleSlash] at hdd
  have hcnsl : c ≠ "/" := by
    intro he
    rw [he] at hdata
    simp only [List.cons.injEq] at hdata
    exact ht_ne hdata.2.symm
  simp only [is_valid_namespace]
  rw [if_neg (by rintro (he | he) <;> [exact hcne he; exact hcnsl he])]
  rw [hdata]
  have e1 : (if ('/' :: t).head? = some '/' then ('/' :: t).tail
      else ('/' :: t)) = t := by simp
  rw [e1]
  have hlt : t.getLast? ≠ some '/' := by
    cases htd : t with
    | nil => exact absurd htd ht_ne
    | cons x xs =>
      rw [hdata, htd, List.getLast?_cons_cons] at hl
      exact hl
  rw [if_neg hlt, if_neg (fun hc => ht_ne (List.isEmpty_iff.1 hc))]
  rw [hdata] at hdd
  rcases htd : t with _ | ⟨x, xs⟩
  · exact absurd htd ht_ne
  · rw [htd] at hdd
    simp only [hasDoubleSlash, Bool.or_eq_true, Bool.and_eq_true,
      decide_eq_true_eq] at hdd
    rcases hdd with ⟨_, rfl⟩ | hdd2
    · rw [splitOn_slash_cons]
      exact checkSegments_mem_nil (by simp)
    · exact checkSegments_mem_nil
        (List.mem_of_mem_tail (mem_nil_splitOn_tail hdd2))


/-- Claim C8 counterexample: `"ns//"` contains two consecutive `'/'`, yet
`create_global_namespace` accepts it and silently collapses the trailing run
(`rstrip('/')` removes every trailing slash, not one). -/
theorem C8_counterexample :
    hasDoubleSlash ("ns//").data = true ∧
    create_global_namespace "ns//" = .ok "/ns" :=
  ⟨rfl, rfl⟩

/-- Claim C8 amended: consecutive slashes that survive the trailing-slash
strip and leading-slash prepend are rejected: whenever the validation
candidate still contains `"//"`, `create_global_namespace` fails. -/
theorem C8_no_silent_collapse (s : String)
    (h : hasDoubleSlash (normCandidate s).data = true) :
    ∃ msg, create_global_namespace s = .error msg := by
  by_cases h1 : pyStrip s = ""
  · exfalso
    revert h
    simp [normCandidate, h1, hasDoubleSlash]
  · by_cases h2 : pyStrip s = "/"
    · exfalso
      revert h
      simp [normCandidate, h1, h2, hasDoubleSlash]
    · have hcond : ¬(pyStrip s = "" ∨ pyStrip s = "/") := by
        rintro (hc | hc)
        exacts [h1 hc, h2 hc]
      by_cases hu0 : rstripSlash (pyStrip s) = ""
      · exfalso
        have hnc : normCandidate s = "/" := by
          simp only [normCandidate, if_neg hcond, hu0]
          rfl
        rw [hnc] at h
        simp [hasDoubleSlash] at h
      · by_cases hh : (rstripSlash (pyStrip s)).data.head? = some '/'
        · have hnc : normCandidate s = rstripSlash (pyStrip s) := by
            simp only [normCandidate, if_neg hcond, if_pos hh]
          have hval : (is_valid_namespace (rstripSlash (pyStrip s))).1 = false :=
            is_valid_namespace_dd (by rw [← hnc]; exact h) hh (rstripSlash_getLast _)
          refine ⟨"Invalid namespace '" ++ rstripSlash (pyStrip s) ++ "': "
            ++ (is_valid_namespace (rstripSlash (pyStrip s))).2, ?_⟩
          simp only [create_global_namespace, if_neg h1, if_neg h2, if_pos hh]
          rw [if_neg (by simp [hval])]
        · have hd2 : ("/" ++ rstripSlash (pyStrip s)).data
              = '/' :: (rstripSlash (pyStrip s)).data := by simp
          have hnc : normCandidate s = "/" ++ rstripSlash (pyStrip s) := by
            simp only [normCandidate, if_neg hcond, if_neg hh]
          have hh2 : ("/" ++ rstripSlash (pyStrip s)).data.head? = some '/' := by
            rw [hd2]
            rfl
          have hl2 : ("/" ++ rstripSlash (pyStrip s)).data.getLast? ≠ some '/' := by
            rw [hd2]
            cases hud : (rstripSlash (pyStrip s)).data with
            | nil => exact absurd (String.ext hud) hu0
            | cons x xs =>
              rw [List.getLast?_cons_cons, ← hud]
              exact rstripSlash_getLast _
          have hval : (is_valid_namespace ("/" ++ rstripSlash (pyStrip s))).1 = false :=
            is_valid_namespace_dd (by rw [← hnc]; exact h) hh2 hl2
          refine ⟨"Invalid namespace '" ++ ("/" ++ rstripSlash (pyStrip s)) ++ "': "
            ++ (is_valid_namespace ("/" ++ rstripSlash (pyStrip s))).2, ?_⟩
          simp only [create_global_namespace, if_neg h1, if_neg h2, if_neg hh]
          rw [if_neg (by simp [hval])]

/-- Witness for the amended C8 at the concrete input `"a//b"`. -/
theorem C8_witness :
    hasDoubleSlash (normCandidate "a//b").data = true ∧
    ∃ msg, create_global_namespace "a//b" = .error msg :=
  ⟨rfl, C8_no_silent_collapse "a//b" rfl⟩


theorem crp_eval {x : String} (hst : pyStrip x = x)
    (hv : is_valid_name (YVal.vstr x) = true) :
    create_robot_prefix x
      = .ok (if x.data.getLast? = some '_' then x else x ++ "_") := by
  simp only [ create_robot_prefix, hst, hv, Bool.not_true]
  rw [if_neg (by simp)]
  by_cases hl : x.data.getLast? = some '_'
  · rw [if_pos hl, if_pos hl]
  · rw [if_neg hl, if_neg hl]

theorem valid_underscore_append {x : String} (hv : is_valid_name (YVal.vstr x) = true)
    (hlen : x.data.length ≤ 254) : is_valid_name (YVal.vstr (x ++ "_")) = true := by
  obtain ⟨h1, _, h3, h4⟩ := valid_name_parts hv
  apply valid_name_intro
  · simp
  · show ((x ++ "_").data).length ≤ 255
    rw [show (x ++ "_").data = x.data ++ ['_'] by simp, List.length_append]
    have h5 : (['_'] : List Char).length = 1 := rfl
    omega
  · intro c0 hc0
    cases hd : x.data with
    | nil => exact absurd hd h1
    | cons y ys =>
      rw [show (x ++ "_").data = x.data ++ ['_'] by simp, hd] at hc0
      simp only [List.cons_append, List.head?_cons, Option.some.injEq] at hc0
      rw [← hc0]
      exact h3 y (by rw [hd]; rfl)
  · intro c hc
    rw [show (x ++ "_").data = x.data ++ ['_'] by simp] at hc
    rcases List.mem_append.1 hc with hc' | hc'
    · exact h4 c hc'
    · rcases List.mem_singleton.1 hc' with rfl
      exact Or.inl rfl

theorem pyStrip_underscore_append {x : String}
    (hv : is_valid_name (YVal.vstr x) = true) :
    pyStrip (x ++ "_") = x ++ "_" := by
  apply pyStrip_eq_self
  intro c hc
  rw [show (x ++ "_").data = x.data ++ ['_'] by simp] at hc
  rcases List.mem_append.1 hc with hc' | hc'
  · exact (valid_name_char_facts hv).1 c hc'
  · rcases List.mem_singleton.1 hc' with rfl
    decide

/-- Discriminator used to separate the two constructors of `Except` in the
C9 counterexample. -/
def exceptIsOk {ε α : Type} : Except ε α → Bool
  | .ok _ => true
  | .error _ => false

/-- A Name of the maximum legal length, 255 characters. -/
def longName : String := ⟨List.replicate 255 'a'⟩

set_option maxRecDepth 8192 in
/-- Claim C9 counterexample: at a 255-character Name (trimmed and Name-valid),
appending `'_'` makes the result 256 characters long, so the second
application of ` create_robot_prefix` fails validation instead of being a
no-op: the composition is not idempotent. -/
theorem C9_counterexample :
    pyStrip longName = longName ∧
    is_valid_name (YVal.vstr longName) = true ∧
    Except.bind ( create_robot_prefix longName) create_robot_prefix
      ≠ create_robot_prefix longName := by
  refine ⟨rfl, by decide, ?_⟩
  intro hcontra
  have h2 := congrArg exceptIsOk hcontra
  rw [show exceptIsOk (Except.bind ( create_robot_prefix longName)
    create_robot_prefix) = false from rfl] at h2
  rw [show exceptIsOk ( create_robot_prefix longName) = true from rfl] at h2
  exact Bool.false_ne_true h2

/-- Claim C9 amended: for every trimmed Name-valid `robot_name`,
` create_robot_prefix` returns it unchanged when it already ends in `'_'` and
appends `'_'` otherwise; and the composition is idempotent provided the name
already ends in `'_'` or has at most 254 characters (at exactly 255
characters the appended underscore exceeds the length limit and the second
application fails instead). -/
theorem C9_amended (x : String) (hst : pyStrip x = x)
    (hv : is_valid_name (YVal.vstr x) = true) :
    create_robot_prefix x
      = .ok (if x.data.getLast? = some '_' then x else x ++ "_") ∧
    ((x.data.getLast? = some '_' ∨ x.data.length ≤ 254) →
      Except.bind ( create_robot_prefix x) create_robot_prefix
        = create_robot_prefix x) := by
  refine ⟨crp_eval hst hv, ?_⟩
  intro hcase
  by_cases hl : x.data.getLast? = some '_'
  · rw [crp_eval hst hv, if_pos hl]
    show create_robot_prefix x = Except.ok x
    rw [crp_eval hst hv, if_pos hl]
  · have hlen : x.data.length ≤ 254 := by
      rcases hcase with hc | hc
      exacts [absurd hc hl, hc]
    rw [crp_eval hst hv, if_neg hl]
    show create_robot_prefix (x ++ "_") = Except.ok (x ++ "_")
    rw [crp_eval (pyStrip_underscore_append hv) (valid_underscore_append hv hlen)]
    rw [if_pos ?_]
    show (x ++ "_").data.getLast? = some '_'
    rw [show (x ++ "_").data = x.data ++ ['_'] by simp]
    exact List.getLast?_concat x.data

/-- Witness for the amended C9 at the concrete name `arm`. -/
theorem C9_witness :
    pyStrip "arm" = "arm" ∧ is_valid_name (YVal.vstr "arm") = true ∧
    create_robot_prefix "arm" = .ok "arm_" ∧
    Except.bind ( create_robot_prefix "arm") create_robot_prefix
      = create_robot_prefix "arm" := by
  have h := C9_amended "arm" rfl (by decide)
  refine ⟨rfl, by decide, ?_, h.2 (Or.inr (by decide))⟩
  have h1 := h.1
  rw [if_neg (by decide)] at h1
  exact h1


theorem lookupY_eq_none {k : String} :
    ∀ {l : List (String × YVal)}, lookupY k l = none ↔ k ∉ keysOf l
  | [] => by simp [lookupY, keysOf]
  | (k', v') :: rest => by
    by_cases he : k' = k
    · subst he
      simp [lookupY, keysOf_cons]
    · simp only [lookupY, if_neg he, keysOf_cons, List.mem_cons]
      rw [lookupY_eq_none]
      constructor
      · rintro hnm (he' | hm)
        exacts [he he'.symm, hnm hm]
      · intro hcon hm
        exact hcon (Or.inr hm)

theorem merge_ok_inv {defaults override : List (String × YVal)} {sep : Char}
    {an nc : Bool} {nested : List (String × YVal)} {a i : List String}
    (h : merge_yaml_maps_strict defaults override sep an nc = .ok (nested, a, i)) :
    ∃ mf i', mergeWalk an nc (flatten sep override) (flatten sep defaults)
        = .ok (mf, a, i') ∧
      nested = unflatten sep mf ∧
      i = i' ++ (keysOf (flatten sep override)).filter
        (fun okk => (lookupY okk (flatten sep defaults)).isNone) := by
  simp only [merge_yaml_maps_strict] at h
  cases hr : mergeWalk an nc (flatten sep override) (flatten sep defaults) with
  | error e =>
    simp only [hr] at h
    exact absurd h (by simp)
  | ok t =>
    obtain ⟨mf, a', i'⟩ := t
    simp only [hr, Except.ok.injEq, Prod.mk.injEq] at h
    obtain ⟨h1, h2, h3⟩ := h
    exact ⟨mf, i', by rw [h2], h1.symm, h3.symm⟩

theorem merge_err_inv {defaults override : List (String × YVal)} {sep : Char}
    {an nc : Bool} {e : MergeErr}
    (h : merge_yaml_maps_strict defaults override sep an nc = .error e) :
    mergeWalk an nc (flatten sep override) (flatten sep defaults) = .error e := by
  simp only [merge_yaml_maps_strict] at h
  cases hr : mergeWalk an nc (flatten sep override) (flatten sep defaults) with
  | error e' =>
    simp only [hr, Except.error.injEq] at h
    rw [h]
  | ok t =>
    obtain ⟨mf, a', i'⟩ := t
    simp only [hr] at h
    exact absurd h (by simp)

theorem merge_of_walk_error {defaults override : List (String × YVal)} {sep : Char}
    {an nc : Bool} {e : MergeErr}
    (hr : mergeWalk an nc (flatten sep override) (flatten sep defaults) = .error e) :
    merge_yaml_maps_strict defaults override sep an nc = .error e := by
  simp only [merge_yaml_maps_strict, hr]

/-- For a successful merge on a well-formed defaults document, the returned
nested document is well-formed and flattens back to exactly the flat mapping
built by the merge loop. -/
theorem merge_ok_flatten_eq {defaults override : List (String × YVal)} {sep : Char}
    {an nc : Bool} {nested : List (String × YVal)} {a i : List String}
    (hw : wfDoc sep defaults = true)
    (h : merge_yaml_maps_strict defaults override sep an nc = .ok (nested, a, i)) :
    ∃ mf i', mergeWalk an nc (flatten sep override) (flatten sep defaults)
        = .ok (mf, a, i') ∧
      flatten sep nested = mf ∧ wfDoc sep nested = true ∧
      i = i' ++ (keysOf (flatten sep override)).filter
        (fun okk => (lookupY okk (flatten sep defaults)).isNone) := by
  obtain ⟨mf, i', hr, hnested, hi⟩ := merge_ok_inv h
  have hkeys : keysOf mf = keysOf (flatten sep defaults) := mergeWalk_keys hr
  have hvals : ∀ kv ∈ mf, tag kv.2 ≠ TypeTag.tmap :=
    mergeWalk_vals_nonMap (flatten_vals_nonMap override)
      (flatten_vals_nonMap defaults) hr
  obtain ⟨d', hwd', hfd', _⟩ := exists_wf_doc defaults hw mf hkeys hvals
  have hnd : nested = d' := by
    rw [hnested, ← hfd']
    exact unflatten_flatten hwd'
  subst hnd
  exact ⟨mf, i', hr, hfd', hwd', hi⟩


/-- Claim C1: the concrete merge example (defaults `{a:1, b:"x"}`, override
`{a:2, c:9}`, `numeric_compat=false`) produces `{a:2, b:"x"}` with
`applied = ["a"]` and `ignored = ["c"]`; in general a flattened default path
absent from the override is copied into the result and appears in neither
`applied` nor `ignored`, and a flattened override path absent from the
defaults is recorded in `ignored` and never merged into the result. -/
theorem C1_merge_strictness :
    merge_yaml_maps_strict [("a", YVal.vint 1), ("b", YVal.vstr "x")]
      [("a", YVal.vint 2), ("c", YVal.vint 9)] '.' true false
      = .ok ([("a", YVal.vint 2), ("b", YVal.vstr "x")], ["a"], ["c"]) ∧
    (∀ (defaults override : List (String × YVal)) (sep : Char) (an nc : Bool)
      (nested : List (String × YVal)) (a i : List String) (k : String),
      wfDoc sep defaults = true →
      merge_yaml_maps_strict defaults override sep an nc = .ok (nested, a, i) →
      k ∈ keysOf (flatten sep defaults) → k ∉ keysOf (flatten sep override) →
      lookupY k (flatten sep nested) = lookupY k (flatten sep defaults) ∧
        k ∉ a ∧ k ∉ i) ∧
    (∀ (defaults override : List (String × YVal)) (sep : Char) (an nc : Bool)
      (nested : List (String × YVal)) (a i : List String) (k : String),
      wfDoc sep defaults = true →
      merge_yaml_maps_strict defaults override sep an nc = .ok (nested, a, i) →
      k ∈ keysOf (flatten sep override) → k ∉ keysOf (flatten sep defaults) →
      k ∈ i ∧ k ∉ keysOf (flatten sep nested)) := by
  refine ⟨?_, ?_, ?_⟩
  · simp [merge_yaml_maps_strict, flatten, mergeWalk, lookupY, isNullVal, same_type,
      tag, unflatten, splitPath, insertSegs, setLeaf, keysOf, sepStr]
  · intro defaults override sep an nc nested a i k hw h hk hok
    obtain ⟨mf, i', hr, hfl, _, hi⟩ := merge_ok_flatten_eq hw h
    have hknone : lookupY k (flatten sep override) = none := lookupY_eq_none.2 hok
    obtain ⟨w1, w2, w3⟩ := mergeWalk_absent hknone hr
    refine ⟨by rw [hfl]; exact w1, w2, ?_⟩
    rw [hi]
    intro hmem
    rcases List.mem_append.1 hmem with hm | hm
    · exact w3 hm
    · exact hok (List.mem_filter.1 hm).1
  · intro defaults override sep an nc nested a i k hw h hk hdk
    obtain ⟨mf, i', hr, hfl, _, hi⟩ := merge_ok_flatten_eq hw h
    have hkeys : keysOf mf = keysOf (flatten sep defaults) := mergeWalk_keys hr
    constructor
    · rw [hi]
      refine List.mem_append.2 (Or.inr (List.mem_filter.2 ⟨hk, ?_⟩))
      rw [lookupY_eq_none.2 hdk]
      rfl
    · rw [hfl, hkeys]
      exact hdk

/-- Witness for C1 at the concrete documents of the claim, with the silently
inherited path `"b"` and the override-only path `"c"`. -/
theorem C1_witness :
    wfDoc '.' [("a", YVal.vint 1), ("b", YVal.vstr "x")] = true ∧
    (lookupY "b" (flatten '.' [("a", YVal.vint 2), ("b", YVal.vstr "x")])
        = lookupY "b" (flatten '.' [("a", YVal.vint 1), ("b", YVal.vstr "x")]) ∧
      "b" ∉ ["a"] ∧ "b" ∉ ["c"]) ∧
    ("c" ∈ ["c"] ∧
      "c" ∉ keysOf (flatten '.' [("a", YVal.vint 2), ("b", YVal.vstr "x")])) := by
  have hw : wfDoc '.' [("a", YVal.vint 1), ("b", YVal.vstr "x")] = true := by
    simp [wfDoc, keysOf]
  have hok := C1_merge_strictness.1
  refine ⟨hw, ?_, ?_⟩
  · exact C1_merge_strictness.2.1 _ _ '.' true false _ _ _ "b" hw hok
      (by simp [flatten, keysOf, sepStr]) (by simp [flatten, keysOf, sepStr])
  · exact C1_merge_strictness.2.2 _ _ '.' true false _ _ _ "c" hw hok
      (by simp [flatten, keysOf, sepStr]) (by simp [flatten, keysOf, sepStr])

/-- Claim C2: `same_type` accepts exactly when the runtime types match, or
`numeric_compat` is set and both sides are real numbers with neither a bool;
consequently the merge of defaults `{a: true}` with override `{a: 1}` fails
even under `numeric_compat=true` (for either value of `allow_none`). -/
theorem C2_same_type_characterization :
    (∀ (a b : YVal) (nc : Bool),
      same_type a b nc = true ↔
        (tag a = tag b ∨
          (nc = true ∧ isRealNum a = true ∧ isRealNum b = true ∧
            isBoolVal a = false ∧ isBoolVal b = false))) ∧
    ∀ an : Bool, merge_yaml_maps_strict [("a", YVal.vbool true)] [("a", YVal.vint 1)]
      '.' an true = .error ⟨"a", "bool", "int"⟩ := by
  constructor
  · intro a b nc
    cases a <;> cases b <;> cases nc <;>
      simp [same_type, tag, isRealNum, isBoolVal]
  · intro an
    cases an <;>
      simp [merge_yaml_maps_strict, flatten, mergeWalk, lookupY, isNullVal, same_type,
        tag, isRealNum, isBoolVal, typeName]

/-- Claim C3: the merge errors exactly when some flattened default entry has a
non-null override value of incompatible type; the error names the offending
flat path and both type names.  In the model the merge returns either one
`TypeError` or a full result, so no half-built result can be produced and no
other mid-merge error exists. -/
theorem C3_error_characterization :
    (∀ (defaults override : List (String × YVal)) (sep : Char) (an nc : Bool),
      (∃ e, merge_yaml_maps_strict defaults override sep an nc = .error e) ↔
        (∃ dk dv ov, (dk, dv) ∈ flatten sep defaults ∧
          lookupY dk (flatten sep override) = some ov ∧ ov ≠ YVal.vnull ∧
          same_type dv ov nc = false)) ∧
    (∀ (defaults override : List (String × YVal)) (sep : Char) (an nc : Bool)
      (e : MergeErr),
      merge_yaml_maps_strict defaults override sep an nc = .error e →
        ∃ dv ov, (e.path, dv) ∈ flatten sep defaults ∧
          lookupY e.path (flatten sep override) = some ov ∧ ov ≠ YVal.vnull ∧
          same_type dv ov nc = false ∧
          e.defaultType = typeName (tag dv) ∧ e.overrideType = typeName (tag ov)) := by
  have hnull_ne : ∀ ov : YVal, isNullVal ov = false → ov ≠ YVal.vnull := by
    intro ov hf hc
    rw [hc] at hf
    simp [isNullVal] at hf
  have hne_null : ∀ ov : YVal, ov ≠ YVal.vnull → isNullVal ov = false := by
    intro ov hne
    cases ov
    case vnull => exact absurd rfl hne
    all_goals rfl
  constructor
  · intro defaults override sep an nc
    constructor
    · rintro ⟨e, he⟩
      obtain ⟨dv, ov, hmem, hlk, hnn, hst, _, _⟩ :=
        mergeWalk_error_mem (merge_err_inv he)
      exact ⟨e.path, dv, ov, hmem, hlk, hnull_ne ov hnn, hst⟩
    · rintro ⟨dk, dv, ov, hmem, hlk, hnn, hst⟩
      obtain ⟨e, he⟩ := mergeWalk_error_of_mismatch hmem hlk (hne_null ov hnn) hst
      exact ⟨e, merge_of_walk_error he⟩
  · intro defaults override sep an nc e he
    obtain ⟨dv, ov, hmem, hlk, hnn, hst, h1, h2⟩ :=
      mergeWalk_error_mem (merge_err_inv he)
    exact ⟨dv, ov, hmem, hlk, hnull_ne ov hnn, hst, h1, h2⟩

/-- Witness for C3 at a concrete mismatching merge. -/
theorem C3_witness :
    merge_yaml_maps_strict [("a", YVal.vfloat 1)] [("a", YVal.vstr "s")] '.' true false
      = .error ⟨"a", "float", "str"⟩ ∧
    (∃ dv ov, ("a", dv) ∈ flatten '.' [("a", YVal.vfloat 1)] ∧
      lookupY "a" (flatten '.' [("a", YVal.vstr "s")]) = some ov ∧ ov ≠ YVal.vnull ∧
      same_type dv ov false = false ∧
      "float" = typeName (tag dv) ∧ "str" = typeName (tag ov)) := by
  have hconc : merge_yaml_maps_strict [("a", YVal.vfloat 1)] [("a", YVal.vstr "s")]
      '.' true false = .error ⟨"a", "float", "str"⟩ := by
    simp [merge_yaml_maps_strict, flatten, mergeWalk, lookupY, isNullVal, same_type,
      tag, isRealNum, isBoolVal, typeName]
  exact ⟨hconc, C3_error_characterization.2 _ _ '.' true false _ hconc⟩

/-- Claim C4: a null override value is adopted (and recorded applied) when
`allow_none` is true, and the default is kept (and the key recorded ignored)
when `allow_none` is false; with the claim's concrete one-key documents both
behaviours are exhibited. -/
theorem C4_null_override :
    (∀ (defaults override : List (String × YVal)) (sep : Char) (nc : Bool)
      (nested : List (String × YVal)) (a i : List String) (k : String),
      wfDoc sep defaults = true →
      k ∈ keysOf (flatten sep defaults) →
      lookupY k (flatten sep override) = some YVal.vnull →
      (merge_yaml_maps_strict defaults override sep true nc = .ok (nested, a, i) →
        lookupY k (flatten sep nested) = some YVal.vnull ∧ k ∈ a) ∧
      (merge_yaml_maps_strict defaults override sep false nc = .ok (nested, a, i) →
        lookupY k (flatten sep nested) = lookupY k (flatten sep defaults) ∧ k ∈ i)) ∧
    merge_yaml_maps_strict [("a", YVal.vstr "x")] [("a", YVal.vnull)] '.' false false
      = .ok ([("a", YVal.vstr "x")], [], ["a"]) ∧
    merge_yaml_maps_strict [("a", YVal.vstr "x")] [("a", YVal.vnull)] '.' true false
      = .ok ([("a", YVal.vnull)], ["a"], []) := by
  refine ⟨?_, ?_, ?_⟩
  · intro defaults override sep nc nested a i k hw hk hlk
    constructor
    · intro h
      obtain ⟨mf, i', hr, hfl, _, _⟩ := merge_ok_flatten_eq hw h
      have hkm : k ∈ keysOf (flatten sep defaults) := hk
      obtain ⟨j1, j2⟩ := (mergeWalk_null hlk hr hkm).1 rfl
      exact ⟨by rw [hfl]; exact j1, j2⟩
    · intro h
      obtain ⟨mf, i', hr, hfl, _, hi⟩ := merge_ok_flatten_eq hw h
      obtain ⟨j1, j2⟩ := (mergeWalk_null hlk hr hk).2 rfl
      refine ⟨by rw [hfl]; exact j1, ?_⟩
      rw [hi]
      exact List.mem_append.2 (Or.inl j2)
  · simp [merge_yaml_maps_strict, flatten, mergeWalk, lookupY, isNullVal, same_type,
      tag, unflatten, splitPath, insertSegs, setLeaf, keysOf, sepStr]
  · simp [merge_yaml_maps_strict, flatten, mergeWalk, lookupY, isNullVal, same_type,
      tag, unflatten, splitPath, insertSegs, setLeaf, keysOf, sepStr]

/-- Witness for C4 at the claim's concrete documents. -/
theorem C4_witness :
    wfDoc '.' [("a", YVal.vstr "x")] = true ∧
    (lookupY "a" (flatten '.' [("a", YVal.vnull)]) = some YVal.vnull ∧ "a" ∈ ["a"]) ∧
    (lookupY "a" (flatten '.' [("a", YVal.vstr "x")])
        = lookupY "a" (flatten '.' [("a", YVal.vstr "x")]) ∧ "a" ∈ ["a"]) := by
  have hw : wfDoc '.' [("a", YVal.vstr "x")] = true := by simp [wfDoc, keysOf]
  have hk : "a" ∈ keysOf (flatten '.' [("a", YVal.vstr "x")]) := by
    simp [flatten, keysOf, sepStr]
  have hlk : lookupY "a" (flatten '.' [("a", YVal.vnull)]) = some YVal.vnull := by
    simp [flatten, lookupY, sepStr]
  refine ⟨hw, ?_, ?_⟩
  · exact (C4_null_override.1 [("a", YVal.vstr "x")] [("a", YVal.vnull)] '.' false
      [("a", YVal.vnull)] ["a"] [] "a" hw hk hlk).1 C4_null_override.2.2
  · exact (C4_null_override.1 [("a", YVal.vstr "x")] [("a", YVal.vnull)] '.' false
      [("a", YVal.vstr "x")] [] ["a"] "a" hw hk hlk).2 C4_null_override.2.1

/-- Claim C5: for every well-formed ConfigDocument (distinct keys, no key
containing the join separator, no empty-dict values), unflattening the
flattened document yields the document back. -/
theorem C5_flatten_unflatten_roundtrip (sep : Char) (d : List (String × YVal))
    (hw : wfDoc sep d = true) : unflatten sep (flatten sep d) = d :=
  unflatten_flatten hw

/-- Witness for C5 on a concrete nested document. -/
theorem C5_witness :
    wfDoc '.' [("a", YVal.vmap [("x", YVal.vint 1),
      ("y", YVal.vmap [("z", YVal.vbool true)])]), ("b", YVal.vstr "s")] = true ∧
    unflatten '.' (flatten '.' [("a", YVal.vmap [("x", YVal.vint 1),
      ("y", YVal.vmap [("z", YVal.vbool true)])]), ("b", YVal.vstr "s")])
      = [("a", YVal.vmap [("x", YVal.vint 1),
          ("y", YVal.vmap [("z", YVal.vbool true)])]), ("b", YVal.vstr "s")] := by
  have hw : wfDoc '.' [("a", YVal.vmap [("x", YVal.vint 1),
      ("y", YVal.vmap [("z", YVal.vbool true)])]), ("b", YVal.vstr "s")] = true := by
    simp [wfDoc, keysOf]
  exact ⟨hw, C5_flatten_unflatten_roundtrip '.' _ hw⟩

/-- Claim C10: a successful merge on a well-formed defaults document returns
a document whose flattened keys are exactly those of the flattened defaults
(even in the same order): no override-only path enters the result and no
default path is dropped. -/
theorem C10_keyset_preservation (defaults override : List (String × YVal))
    (sep : Char) (an nc : Bool) (nested : List (String × YVal))
    (a i : List String) (hw : wfDoc sep defaults = true)
    (h : merge_yaml_maps_strict defaults override sep an nc = .ok (nested, a, i)) :
    keysOf (flatten sep nested) = keysOf (flatten sep defaults) := by
  obtain ⟨mf, i', hr, hfl, _, _⟩ := merge_ok_flatten_eq hw h
  rw [hfl]
  exact mergeWalk_keys hr

/-- Witness for C10 at a nested concrete merge. -/
theorem C10_witness :
    wfDoc '.' [("a", YVal.vmap [("x", YVal.vint 1), ("y", YVal.vint 2)]),
      ("b", YVal.vstr "s")] = true ∧
    keysOf (flatten '.' [("a", YVal.vmap [("x", YVal.vint 1), ("y", YVal.vint 5)]),
        ("b", YVal.vstr "s")])
      = keysOf (flatten '.' [("a", YVal.vmap [("x", YVal.vint 1), ("y", YVal.vint 2)]),
        ("b", YVal.vstr "s")]) := by
  have hw : wfDoc '.' [("a", YVal.vmap [("x", YVal.vint 1), ("y", YVal.vint 2)]),
      ("b", YVal.vstr "s")] = true := by simp [wfDoc, keysOf]
  have hok : merge_yaml_maps_strict
      [("a", YVal.vmap [("x", YVal.vint 1), ("y", YVal.vint 2)]), ("b", YVal.vstr "s")]
      [("a", YVal.vmap [("y", YVal.vint 5), ("z", YVal.vint 6)])] '.' true false
      = .ok ([("a", YVal.vmap [("x", YVal.vint 1), ("y", YVal.vint 5)]),
          ("b", YVal.vstr "s")], ["a.y"], ["a.z"]) := by
    simp [merge_yaml_maps_strict, flatten, mergeWalk, lookupY, isNullVal, same_type,
      tag, unflatten, splitPath, insertSegs, setLeaf, keysOf, sepStr]
  exact ⟨hw, C10_keyset_preservation _ _ '.' true false _ _ _ hw hok⟩

end Ros2LaunchHelpers
